import Mathlib

/-!
Verification of the pollywog calculation-set library (`pollywog/core.py`,
`pollywog/utils.py`, `pollywog/conversion/decomp.py`).

The development shallowly embeds the Python source: JSON values become an
inductive `Json`, the concrete object model (`CalcSet`, `Item`, `If`, `IfRow`)
becomes a family of inductive types, serialization (`to_dict`) becomes
`Option`-valued functions (a Python exception is `none`), deserialization
(`from_dict`) becomes `Except String`-valued functions (a raised `ValueError`
or `KeyError` is `.error`), and the decompiler IR (`IRExpression`, `IRIf`,
`IRIfRow`) becomes a mutual inductive with its regex-based analyses
reimplemented as executable character scanners with the exact semantics of the
`re.findall` calls in the source.
-/

namespace Pollywog

/-- JSON values, the payload language of the `.lfcalc` container and the
argument/result type of every `to_dict`/`from_dict` in `core.py`.  Objects are
association lists in insertion order, which is what `json.loads`/`json.dumps`
preserve for Python dicts. -/
inductive Json where
  | null : Json
  | bool : Bool → Json
  | num : Int → Json
  | str : String → Json
  | arr : List Json → Json
  | obj : List (String × Json) → Json

instance : Inhabited Json := ⟨Json.null⟩

/-- First value stored under key `k`, as Python dict lookup (`kvs[k]` when the
keys are unique, which `json.loads` guarantees). -/
def pyLookup (kvs : List (String × Json)) (k : String) : Option Json :=
  match kvs with
  | [] => none
  | (k2, v) :: rest => if k2 = k then some v else pyLookup rest k

/-- `data[k]` on a JSON value: `KeyError` when the key is missing, `TypeError`
when `data` is not a dict. -/
def getKey (j : Json) (k : String) : Except String Json :=
  match j with
  | .obj kvs =>
    match pyLookup kvs k with
    | some v => .ok v
    | none => .error ("KeyError: " ++ k)
  | _ => .error ("TypeError: value is not subscriptable with " ++ k)

/-- `data.get(k, dflt)` on a JSON value. -/
def dictGet (j : Json) (k : String) (dflt : Json) : Except String Json :=
  match j with
  | .obj kvs => .ok ((pyLookup kvs k).getD dflt)
  | _ => .error "AttributeError: get"

/-- `isinstance(x, str)` for JSON values. -/
def Json.isStr : Json → Bool
  | .str _ => true
  | _ => false

/-- `utils.ensure_list` on a JSON value: wrap anything that is not a list. -/
def ensureListJ (j : Json) : List Json :=
  match j with
  | .arr l => l
  | _ => [j]

/-- `utils.ensure_str_list` on a JSON value: wrap a non-list, then pad with
empty strings at either end whose element is not a string.  `x[0]` on the empty
list raises `IndexError`. -/
def ensureStrListJ (j : Json) : Except String (List Json) :=
  match ensureListJ j with
  | [] => .error "IndexError: list index out of range"
  | h :: t =>
    let out1 := if h.isStr then h :: t else Json.str "" :: h :: t
    let last := (h :: t).getLast (List.cons_ne_nil h t)
    .ok (if last.isStr then out1 else out1 ++ [Json.str ""])

mutual

/-- Size measure used to justify termination of the recursive
deserializers: strings and atoms weigh nothing, containers weigh one plus
one per element. -/
def jsize : Json → Nat
  | .null => 0
  | .bool _ => 0
  | .num _ => 0
  | .str _ => 0
  | .arr l => 1 + jsizeArr l
  | .obj kvs => 1 + jsizeObj kvs

/-- Size of a JSON array body. -/
def jsizeArr : List Json → Nat
  | [] => 0
  | x :: xs => 1 + jsize x + jsizeArr xs

/-- Size of a JSON object body. -/
def jsizeObj : List (String × Json) → Nat
  | [] => 0
  | kv :: rest => 1 + jsize kv.2 + jsizeObj rest

end

theorem jsize_of_pyLookup {kvs : List (String × Json)} {k : String} {v : Json}
    (h : pyLookup kvs k = some v) : 1 + jsize v ≤ jsizeObj kvs := by
  induction kvs with
  | nil => simp [pyLookup] at h
  | cons kv rest ih =>
    rw [pyLookup] at h
    by_cases hk : kv.1 = k
    · rw [if_pos hk] at h
      simp only [Option.some.injEq] at h
      subst h
      rw [jsizeObj]
      omega
    · rw [if_neg hk] at h
      have := ih h
      rw [jsizeObj]
      omega

theorem jsize_of_getKey {j : Json} {k : String} {v : Json}
    (h : getKey j k = .ok v) : 2 + jsize v ≤ jsize j := by
  cases j with
  | obj kvs =>
    rw [getKey] at h
    cases hl : pyLookup kvs k with
    | none => rw [hl] at h; exact absurd h (by simp)
    | some w =>
      rw [hl] at h
      simp only [Except.ok.injEq] at h
      subst h
      have := jsize_of_pyLookup hl
      rw [jsize]
      omega
  | null => simp [getKey] at h
  | bool b => simp [getKey] at h
  | num n => simp [getKey] at h
  | str s => simp [getKey] at h
  | arr l => simp [getKey] at h

theorem jsizeArr_le_of_mem {l : List Json} {x : Json}
    (h : x ∈ l) : 1 + jsize x ≤ jsizeArr l := by
  induction l with
  | nil => simp at h
  | cons y ys ih =>
    rcases List.mem_cons.mp h with h1 | h2
    · subst h1; rw [jsizeArr]; omega
    · have := ih h2; rw [jsizeArr]; omega

theorem jsizeArr_ensureListJ (j : Json) : jsizeArr (ensureListJ j) ≤ 1 + jsize j := by
  cases j <;> simp only [ensureListJ, jsizeArr, jsize] <;> omega

theorem jsizeArr_append (a b : List Json) :
    jsizeArr (a ++ b) = jsizeArr a + jsizeArr b := by
  induction a with
  | nil => simp [jsizeArr]
  | cons x xs ih =>
    rw [List.cons_append, jsizeArr, jsizeArr, ih]
    omega

theorem jsizeArr_cons (x : Json) (xs : List Json) :
    jsizeArr (x :: xs) = 1 + jsize x + jsizeArr xs := by
  rw [jsizeArr]

theorem jsizeArr_ensureStrListJ {j : Json} {l : List Json}
    (h : ensureStrListJ j = .ok l) : jsizeArr l ≤ 3 + jsize j := by
  rw [ensureStrListJ] at h
  cases he : ensureListJ j with
  | nil => rw [he] at h; exact absurd h (by simp)
  | cons x xs =>
    rw [he] at h
    simp only [Except.ok.injEq] at h
    have hbase : jsizeArr (x :: xs) ≤ 1 + jsize j := by
      rw [← he]; exact jsizeArr_ensureListJ j
    have hstr : jsize (Json.str "") = 0 := by rw [jsize]
    rw [jsizeArr_cons] at hbase
    subst h
    by_cases h1 : Json.isStr x <;>
      by_cases h2 : Json.isStr ((x :: xs).getLast (List.cons_ne_nil x xs)) <;>
        simp only [h1, h2, if_true, if_false, Bool.false_eq_true,
          jsizeArr_append, jsizeArr_cons, jsizeArr, hstr] <;> omega

/-! ## Decidable equality

The derive handler does not support nested inductives, so boolean equality
functions and their soundness are spelled out. -/

mutual

def jbeq : Json → Json → Bool
  | .null, .null => true
  | .bool a, .bool b => a == b
  | .num a, .num b => a == b
  | .str a, .str b => a == b
  | .arr a, .arr b => jbeqArr a b
  | .obj a, .obj b => jbeqObj a b
  | _, _ => false

def jbeqArr : List Json → List Json → Bool
  | [], [] => true
  | a :: as, b :: bs => jbeq a b && jbeqArr as bs
  | _, _ => false

def jbeqObj : List (String × Json) → List (String × Json) → Bool
  | [], [] => true
  | a :: as, b :: bs => a.1 == b.1 && jbeq a.2 b.2 && jbeqObj as bs
  | _, _ => false

end

mutual

theorem jbeq_iff : ∀ (a b : Json), jbeq a b = true ↔ a = b
  | .null, .null => by simp [jbeq]
  | .null, .bool _ => by simp [jbeq]
  | .null, .num _ => by simp [jbeq]
  | .null, .str _ => by simp [jbeq]
  | .null, .arr _ => by simp [jbeq]
  | .null, .obj _ => by simp [jbeq]
  | .bool _, .null => by simp [jbeq]
  | .bool a, .bool b => by simp [jbeq]
  | .bool _, .num _ => by simp [jbeq]
  | .bool _, .str _ => by simp [jbeq]
  | .bool _, .arr _ => by simp [jbeq]
  | .bool _, .obj _ => by simp [jbeq]
  | .num _, .null => by simp [jbeq]
  | .num _, .bool _ => by simp [jbeq]
  | .num a, .num b => by simp [jbeq]
  | .num _, .str _ => by simp [jbeq]
  | .num _, .arr _ => by simp [jbeq]
  | .num _, .obj _ => by simp [jbeq]
  | .str _, .null => by simp [jbeq]
  | .str _, .bool _ => by simp [jbeq]
  | .str _, .num _ => by simp [jbeq]
  | .str a, .str b => by simp [jbeq]
  | .str _, .arr _ => by simp [jbeq]
  | .str _, .obj _ => by simp [jbeq]
  | .arr _, .null => by simp [jbeq]
  | .arr _, .bool _ => by simp [jbeq]
  | .arr _, .num _ => by simp [jbeq]
  | .arr _, .str _ => by simp [jbeq]
  | .arr a, .arr b => by
    rw [jbeq, jbeqArr_iff a b]
    simp
  | .arr _, .obj _ => by simp [jbeq]
  | .obj _, .null => by simp [jbeq]
  | .obj _, .bool _ => by simp [jbeq]
  | .obj _, .num _ => by simp [jbeq]
  | .obj _, .str _ => by simp [jbeq]
  | .obj _, .arr _ => by simp [jbeq]
  | .obj a, .obj b => by
    rw [jbeq, jbeqObj_iff a b]
    simp

theorem jbeqArr_iff : ∀ (a b : List Json), jbeqArr a b = true ↔ a = b
  | [], [] => by simp [jbeqArr]
  | [], _ :: _ => by simp [jbeqArr]
  | _ :: _, [] => by simp [jbeqArr]
  | a :: as, b :: bs => by
    rw [jbeqArr, Bool.and_eq_true, jbeq_iff a b, jbeqArr_iff as bs]
    simp

theorem jbeqObj_iff : ∀ (a b : List (String × Json)), jbeqObj a b = true ↔ a = b
  | [], [] => by simp [jbeqObj]
  | [], _ :: _ => by simp [jbeqObj]
  | _ :: _, [] => by simp [jbeqObj]
  | a :: as, b :: bs => by
    rw [jbeqObj, Bool.and_eq_true, Bool.and_eq_true, jbeq_iff a.2 b.2,
      jbeqObj_iff as bs]
    constructor
    · rintro ⟨⟨h1, h2⟩, h3⟩
      have h0 := beq_iff_eq.mp h1
      subst h3
      rcases a with ⟨x, y⟩
      rcases b with ⟨u, v⟩
      simp_all
    · intro h
      injection h with h1 h2
      subst h2
      subst h1
      simp

end

instance : DecidableEq Json := fun a b =>
  decidable_of_iff (jbeq a b = true) (jbeq_iff a b)

/-! ## The concrete object model (`pollywog/core.py`)

`Item` subclasses are a closed set (`Variable`, `Number`, `Category`,
`Filter`), encoded by `ItemKind`.  Expression children are either literal text
fragments, nested `If` conditionals, or (in Python) arbitrary passthrough
values, encoded by `Child.raw` carrying the JSON value the passthrough
serializes to. -/

inductive ItemKind where
  | Variable : ItemKind
  | Number : ItemKind
  | Category : ItemKind
  | Filter : ItemKind
deriving DecidableEq

/-- The `item_type` class attribute of each `Item` subclass. -/
def item_type : ItemKind → String
  | .Variable => "variable"
  | .Number => "calculation"
  | .Category => "calculation"
  | .Filter => "filter"

/-- The `calculation_type` class attribute of each `Item` subclass
(`None` encoded as `none`). -/
def calculation_type : ItemKind → Option String
  | .Variable => none
  | .Number => some "number"
  | .Category => some "string"
  | .Filter => none

mutual

/-- One element of an `Item`'s `children` list (or of an `IfRow`'s
`condition`/`value` or an `If`'s `otherwise`): a string, an `If`, or any other
value passed through untouched by `utils.to_dict`/`dispatch_expression`. -/
inductive Child where
  | text : String → Child
  | cond : If → Child
  | raw : Json → Child

/-- `core.If`: ordered rows plus the `otherwise` children.  In Python the
`rows` argument may also hold raw dicts or pairs, which `If.to_dict`
normalizes; the model keeps the normalized `IfRow` form that
`If.from_dict` produces and all library call sites construct. -/
inductive If where
  | mk : List IfRow → List Child → If

/-- `core.IfRow`: a condition children list and a value children list. -/
inductive IfRow where
  | mk : List Child → List Child → IfRow

end

def If.rows : If → List IfRow
  | .mk r _ => r

def If.otherwise : If → List Child
  | .mk _ o => o

def IfRow.condition : IfRow → List Child
  | .mk c _ => c

def IfRow.value : IfRow → List Child
  | .mk _ v => v

/-- `core.Item` with its subclass identity captured by `kind`. -/
structure Item where
  kind : ItemKind
  name : String
  children : List Child
  comment_item : String
  comment_equation : String

/-- An element of `CalcSet.items`.  `CalcSet.from_dict` dispatches item dicts
through the `classes` registry, whose keys are `"variable"`, `"filter"`,
`"if"` and `"if_row"`, so a deserialized calculation set may hold `If` and
`IfRow` objects alongside `Item`s. -/
inductive CSItem where
  | item : Item → CSItem
  | ifExpr : If → CSItem
  | ifRow : IfRow → CSItem

/-- `core.CalcSet`. -/
structure CalcSet where
  items : List CSItem

/-! ## Serialization (`to_dict` direction)

A raised Python exception is modeled as `none`.  `utils.to_dict` with
`guard_strings=True` pads the mapped list with empty strings; on the empty
list, `out[0]` raises `IndexError` (`utils.py` line 85). -/

/-- The `guard_strings` padding step of `utils.to_dict`: prepend `""` when the
first element is not a string, append `""` when the last is not; `IndexError`
on the empty list. -/
def guard_strings (out : List Json) : Option (List Json) :=
  match out with
  | [] => none
  | h :: t =>
    let out1 := if h.isStr then h :: t else Json.str "" :: h :: t
    let last := (h :: t).getLast (List.cons_ne_nil h t)
    some (if last.isStr then out1 else out1 ++ [Json.str ""])

mutual

/-- Serialization of one expression child: strings stay strings, `If` objects
serialize via `If.to_dict`, anything else passes through (`utils.to_dict`). -/
def Child.to_dict : Child → Option Json
  | .text s => some (.str s)
  | .cond i => If.to_dict i
  | .raw j => some j

/-- The mapping step of `utils.to_dict` over a children list. -/
def childrenToJson : List Child → Option (List Json)
  | [] => some []
  | c :: cs =>
    match Child.to_dict c, childrenToJson cs with
    | some j, some js => some (j :: js)
    | _, _ => none

/-- `core.If.to_dict`. -/
def If.to_dict : If → Option Json
  | .mk rows otherwise =>
    match rowsToJson rows, childrenToJson otherwise with
    | some rjs, some ojs =>
      match guard_strings ojs with
      | some goj =>
        some (.obj [("type", .str "if"), ("rows", .arr rjs),
          ("otherwise", .obj [("type", .str "list"), ("children", .arr goj)])])
      | none => none
    | _, _ => none

/-- The row-serialization loop of `core.If.to_dict` (rows are `IfRow`s in the
model, so every iteration takes the `isinstance(row, IfRow)` branch). -/
def rowsToJson : List IfRow → Option (List Json)
  | [] => some []
  | r :: rs =>
    match IfRow.to_dict r, rowsToJson rs with
    | some j, some js => some (j :: js)
    | _, _ => none

/-- `core.IfRow.to_dict`: the `test` children are serialized without string
guards, the `result` children with `guard_strings=True`. -/
def IfRow.to_dict : IfRow → Option Json
  | .mk condition value =>
    match childrenToJson condition, childrenToJson value with
    | some cjs, some vjs0 =>
      match guard_strings vjs0 with
      | some vjs =>
        some (.obj [("type", .str "if_row"),
          ("test", .obj [("type", .str "list"), ("children", .arr cjs)]),
          ("result", .obj [("type", .str "list"), ("children", .arr vjs)])])
      | none => none
    | _, _ => none

end

/-- `core.Item.to_dict`: children serialized with `guard_strings=True`, dict
keys in insertion order, `calculation_type` appended when the subclass sets
it. -/
def Item.to_dict (it : Item) : Option Json :=
  match childrenToJson it.children with
  | none => none
  | some cjs =>
    match guard_strings cjs with
    | none => none
    | some gcs =>
      let base := [("type", Json.str (item_type it.kind)),
        ("name", Json.str it.name),
        ("equation", Json.obj [("type", Json.str "equation"),
          ("comment", Json.str it.comment_equation),
          ("statement", Json.obj [("type", Json.str "list"),
            ("children", Json.arr gcs)])]),
        ("comment", Json.str it.comment_item)]
      some (.obj (match calculation_type it.kind with
        | some ct => base ++ [("calculation_type", Json.str ct)]
        | none => base))

/-- Serialization of one `CalcSet` element (each variant has a `to_dict`). -/
def CSItem.to_dict : CSItem → Option Json
  | .item it => Item.to_dict it
  | .ifExpr i => If.to_dict i
  | .ifRow r => IfRow.to_dict r

/-- The `utils.to_dict(self.items)` call of `CalcSet.to_dict` (no guard). -/
def csItemsToJson : List CSItem → Option (List Json)
  | [] => some []
  | x :: xs =>
    match CSItem.to_dict x, csItemsToJson xs with
    | some j, some js => some (j :: js)
    | _, _ => none

/-- The `ITEM_ORDER` dict of `core.py` as its `.get(t, 99)` method: 0 for
`"variable"`, 1 for `"calculation"`, 2 for `"filter"`, the default 99
otherwise. -/
def ITEM_ORDER_get (t : Json) : Nat :=
  if t = Json.str "variable" then 0
  else if t = Json.str "calculation" then 1
  else if t = Json.str "filter" then 2
  else 99

/-- The sort key `ITEM_ORDER.get(x.get("type"), 99)` of `CalcSet.to_dict`
(`x.get("type")` defaults to `None`, which is not an `ITEM_ORDER` key).  Every
serialized item is a dict, so the non-dict fallback is unreachable in use. -/
def itemOrderKey (x : Json) : Nat :=
  match x with
  | .obj kvs => ITEM_ORDER_get ((pyLookup kvs "type").getD Json.null)
  | _ => 99

/-- Insertion step of the stable sort.  An element is placed before the first
element of equal or larger key, which keeps the relative order of equal keys:
this is extensionally the stable `list.sort(key=...)` of Python. -/
def insertByKey (x : Json) : List Json → List Json
  | [] => [x]
  | y :: ys =>
    if itemOrderKey x ≤ itemOrderKey y then x :: y :: ys else y :: insertByKey x ys

/-- Stable sort by `itemOrderKey`, modeling `items.sort(key=...)`. -/
def pySortItems : List Json → List Json
  | [] => []
  | x :: xs => insertByKey x (pySortItems xs)

/-- `core.CalcSet.to_dict`. -/
def CalcSet.to_dict (cs : CalcSet) (sort_items : Bool) : Option Json :=
  match csItemsToJson cs.items with
  | none => none
  | some items0 =>
    let items := if sort_items then pySortItems items0 else items0
    some (.obj [("type", Json.str "calculation-set"), ("items", Json.arr items)])

/-! ## The binary container (`to_lfcalc` / `read_lfcalc`)

`HEADER` is the byte constant of `core.py` line 8.  `_write_to_file` writes
`HEADER` then `zlib.compress(json.dumps(to_dict(sort_items)))`;
`_read_from_file` seeks past `len(HEADER)` without validating the bytes,
decompresses, parses and calls `from_dict`.  `zlib` compression and JSON text
round-trip losslessly (standard-library guarantees), so the container is
modeled as the header bytes plus the JSON value of the payload. -/

/-- The 32-byte magic constant `HEADER`: the ASCII bytes of `%lfcalc-1.0`
followed by a newline byte and twenty zero bytes. -/
def HEADER : List Nat :=
  [0x25, 0x6c, 0x66, 0x63, 0x61, 0x6c, 0x63, 0x2d, 0x31, 0x2e, 0x30, 0x0a] ++
    List.replicate 20 0

/-- A written `.lfcalc` file: header bytes plus the JSON payload carried by
the compressed section. -/
structure LfcalcFile where
  header : List Nat
  payload : Json

/-- `core.CalcSet.to_lfcalc` / `_write_to_file`: the header constant is
written first, then the payload. -/
def CalcSet.to_lfcalc (cs : CalcSet) (sort_items : Bool) : Option LfcalcFile :=
  match cs.to_dict sort_items with
  | some payload => some ⟨HEADER, payload⟩
  | none => none

/-! ## Deserialization (`from_dict` direction)

A raised Python exception (`ValueError`, `KeyError`, `TypeError`,
`IndexError`) is `.error`.  The recursion is well-founded by the size of the
JSON argument; `dispatch_expression` hands the same value to `If.from_dict`,
which is why the measure carries a tie-breaking summand. -/

mutual

/-- `core.dispatch_expression`: a dict with a `"type"` key is dispatched
through the `expressions` registry (which holds only `"if"`), a dict with an
unregistered type raises `ValueError`, and everything else (including dicts
without a `"type"` key) is returned unchanged. -/
def dispatch_expression (data : Json) : Except String Child :=
  match data with
  | .obj kvs =>
    match pyLookup kvs "type" with
    | some (.str "if") =>
      match If.from_dict (.obj kvs) with
      | .ok i => .ok (.cond i)
      | .error e => .error e
    | some _ => .error "ValueError: Unknown expression type"
    | none => .ok (.raw (.obj kvs))
  | .str s => .ok (.text s)
  | j => .ok (.raw j)
termination_by 2 * jsize data + 1
decreasing_by
all_goals simp_wf
all_goals omega

/-- `core.If.from_dict`. -/
def If.from_dict (data : Json) : Except String If :=
  match getKey data "type" with
  | .error e => .error e
  | .ok t =>
    match t with
    | .str "if" =>
      match h1 : getKey data "rows" with
      | .error e => .error e
      | .ok rowsJ =>
        match rowsFromJson (ensureListJ rowsJ) with
        | .error e => .error e
        | .ok rows =>
          match h2 : getKey data "otherwise" with
          | .error e => .error e
          | .ok othJ =>
            match h3 : getKey othJ "children" with
            | .error e => .error e
            | .ok othCh =>
              match h4 : ensureStrListJ othCh with
              | .error e => .error e
              | .ok padded =>
                match dispatchList padded with
                | .error e => .error e
                | .ok otherwise => .ok (If.mk rows otherwise)
    | _ => .error "ValueError: Expected type if"
termination_by 2 * jsize data
decreasing_by
· simp_wf
  have a := jsizeArr_ensureListJ rowsJ
  have b := jsize_of_getKey h1
  omega
· simp_wf
  have a := jsizeArr_ensureStrListJ h4
  have b := jsize_of_getKey h3
  have c := jsize_of_getKey h2
  omega

/-- The row loop of `core.If.from_dict`.  A non-dict row is passed through
unconverted in Python; that degenerate shape is not representable in the typed
`rows` list and is mapped to an error here (no serialized calculation set
contains it, and no claim concerns it). -/
def rowsFromJson : List Json → Except String (List IfRow)
  | [] => .ok []
  | row :: rest =>
    match row with
    | .obj kvs =>
      match IfRow.from_dict (.obj kvs) with
      | .error e => .error e
      | .ok r =>
        match rowsFromJson rest with
        | .error e => .error e
        | .ok rs => .ok (r :: rs)
    | _ => .error "row passthrough for non-dict rows is not modeled"
termination_by l => 2 * jsizeArr l + 1
decreasing_by
all_goals simp_wf
all_goals simp only [jsizeArr_cons]
all_goals omega

/-- `core.IfRow.from_dict`: the `test` children via `ensure_list`, the
`result` children via `ensure_str_list`, each element dispatched. -/
def IfRow.from_dict (data : Json) : Except String IfRow :=
  match getKey data "type" with
  | .error e => .error e
  | .ok t =>
    match t with
    | .str "if_row" =>
      match h1 : getKey data "test" with
      | .error e => .error e
      | .ok testJ =>
        match h2 : getKey testJ "children" with
        | .error e => .error e
        | .ok testCh =>
          match dispatchList (ensureListJ testCh) with
          | .error e => .error e
          | .ok condition =>
            match h3 : getKey data "result" with
            | .error e => .error e
            | .ok resJ =>
              match h4 : getKey resJ "children" with
              | .error e => .error e
              | .ok resCh =>
                match h5 : ensureStrListJ resCh with
                | .error e => .error e
                | .ok padded =>
                  match dispatchList padded with
                  | .error e => .error e
                  | .ok value => .ok (IfRow.mk condition value)
    | _ => .error "ValueError: Expected type if_row"
termination_by 2 * jsize data
decreasing_by
· simp_wf
  have a := jsizeArr_ensureListJ testCh
  have b := jsize_of_getKey h2
  have c := jsize_of_getKey h1
  omega
· simp_wf
  have a := jsizeArr_ensureStrListJ h5
  have b := jsize_of_getKey h4
  have c := jsize_of_getKey h3
  omega

/-- An element-wise `dispatch_expression` loop over a children list. -/
def dispatchList : List Json → Except String (List Child)
  | [] => .ok []
  | x :: xs =>
    match dispatch_expression x with
    | .error e => .error e
    | .ok c =>
      match dispatchList xs with
      | .error e => .error e
      | .ok cs => .ok (c :: cs)
termination_by l => 2 * jsizeArr l
decreasing_by
all_goals simp_wf
all_goals simp only [jsizeArr_cons]
all_goals omega

end

/-- `core.Item.from_dict` for the subclass `cls` identified by `k`: check the
`"type"` tag, dispatch every child of
`data["equation"]["statement"]["children"]` (via `ensure_list`, with no string
guard on read), then read `name` and the two comments.  Python would accept
non-string names and comments; the typed model requires strings (no serialized
item and no claim involves other shapes). -/
def Item.from_dict (k : ItemKind) (data : Json) : Except String Item :=
  match getKey data "type" with
  | .error e => .error e
  | .ok t =>
    match t with
    | .str s =>
      if s = item_type k then
        match getKey data "equation" with
        | .error e => .error e
        | .ok eqJ =>
          match getKey eqJ "statement" with
          | .error e => .error e
          | .ok stJ =>
            match getKey stJ "children" with
            | .error e => .error e
            | .ok chJ =>
              match dispatchList (ensureListJ chJ) with
              | .error e => .error e
              | .ok children =>
                match getKey data "name" with
                | .error e => .error e
                | .ok (.str name) =>
                  match dictGet data "comment" (.str "") with
                  | .error e => .error e
                  | .ok (.str ci) =>
                    match dictGet eqJ "comment" (.str "") with
                    | .error e => .error e
                    | .ok (.str ce) => .ok ⟨k, name, children, ci, ce⟩
                    | .ok _ => .error "TypeError: equation comment is not a string"
                  | .ok _ => .error "TypeError: comment is not a string"
                | .ok _ => .error "TypeError: name is not a string"
      else .error "ValueError: unexpected item type"
    | _ => .error "ValueError: unexpected item type"

/-- One iteration of the item loop of `core.CalcSet.from_dict`: the `classes`
registry (`"variable"`, `"filter"`, `"if"`, `"if_row"`), then the special
`"calculation"` branch keyed on `calculation_type`, else `ValueError`. -/
def csItemFromJson (item : Json) : Except String CSItem :=
  match getKey item "type" with
  | .error e => .error e
  | .ok t =>
    match t with
    | .str "variable" =>
      match Item.from_dict .Variable item with
      | .ok it => .ok (.item it)
      | .error e => .error e
    | .str "filter" =>
      match Item.from_dict .Filter item with
      | .ok it => .ok (.item it)
      | .error e => .error e
    | .str "if" =>
      match If.from_dict item with
      | .ok i => .ok (.ifExpr i)
      | .error e => .error e
    | .str "if_row" =>
      match IfRow.from_dict item with
      | .ok r => .ok (.ifRow r)
      | .error e => .error e
    | .str "calculation" =>
      match dictGet item "calculation_type" Json.null with
      | .error e => .error e
      | .ok ct =>
        match ct with
        | .str "number" =>
          match Item.from_dict .Number item with
          | .ok it => .ok (.item it)
          | .error e => .error e
        | .str "string" =>
          match Item.from_dict .Category item with
          | .ok it => .ok (.item it)
          | .error e => .error e
        | _ => .error "ValueError: Unknown calculation type"
    | _ => .error "ValueError: Unknown item type"

/-- The item loop of `core.CalcSet.from_dict`. -/
def csItemsFromJson : List Json → Except String (List CSItem)
  | [] => .ok []
  | x :: xs =>
    match csItemFromJson x with
    | .error e => .error e
    | .ok it =>
      match csItemsFromJson xs with
      | .error e => .error e
      | .ok rest => .ok (it :: rest)

/-- `for item in data["items"]`: a JSON array iterates its elements, a string
iterates one-character strings, a dict iterates its keys (each then failing
the `item["type"]` subscription), anything else raises `TypeError`. -/
def itemsIter (j : Json) : Except String (List Json) :=
  match j with
  | .arr l => .ok l
  | .str s => .ok (s.data.map fun c => Json.str (String.singleton c))
  | .obj kvs => .ok (kvs.map fun kv => Json.str kv.1)
  | _ => .error "TypeError: not iterable"

/-- `core.CalcSet.from_dict`. -/
def CalcSet.from_dict (data : Json) : Except String CalcSet :=
  match getKey data "type" with
  | .error e => .error e
  | .ok t =>
    match t with
    | .str "calculation-set" =>
      match getKey data "items" with
      | .error e => .error e
      | .ok itemsJ =>
        match itemsIter itemsJ with
        | .error e => .error e
        | .ok l =>
          match csItemsFromJson l with
          | .error e => .error e
          | .ok items => .ok ⟨items⟩
    | _ => .error "ValueError: Expected type calculation-set"

/-- `core.CalcSet.read_lfcalc` / `_read_from_file`: skip exactly the header
length without validating the bytes, decompress and parse the payload, then
`from_dict`. -/
def read_lfcalc (f : LfcalcFile) : Except String CalcSet :=
  CalcSet.from_dict f.payload


mutual

def cbeq : Child → Child → Bool
  | .text a, .text b => a == b
  | .cond a, .cond b => ibeq a b
  | .raw a, .raw b => jbeq a b
  | _, _ => false

def ibeq : If → If → Bool
  | .mk ra oa, .mk rb ob => rbeqList ra rb && cbeqList oa ob

def rbeq : IfRow → IfRow → Bool
  | .mk ca va, .mk cb vb => cbeqList ca cb && cbeqList va vb

def rbeqList : List IfRow → List IfRow → Bool
  | [], [] => true
  | a :: as, b :: bs => rbeq a b && rbeqList as bs
  | _, _ => false

def cbeqList : List Child → List Child → Bool
  | [], [] => true
  | a :: as, b :: bs => cbeq a b && cbeqList as bs
  | _, _ => false

end

mutual

theorem cbeq_iff : ∀ (a b : Child), cbeq a b = true ↔ a = b
  | .text _, .text _ => by simp [cbeq]
  | .text _, .cond _ => by simp [cbeq]
  | .text _, .raw _ => by simp [cbeq]
  | .cond _, .text _ => by simp [cbeq]
  | .cond a, .cond b => by
    rw [cbeq, ibeq_iff a b]
    simp
  | .cond _, .raw _ => by simp [cbeq]
  | .raw _, .text _ => by simp [cbeq]
  | .raw _, .cond _ => by simp [cbeq]
  | .raw a, .raw b => by
    rw [cbeq, jbeq_iff a b]
    simp

theorem ibeq_iff : ∀ (a b : If), ibeq a b = true ↔ a = b
  | .mk ra oa, .mk rb ob => by
    rw [ibeq, Bool.and_eq_true, rbeqList_iff ra rb, cbeqList_iff oa ob]
    simp

theorem rbeq_iff : ∀ (a b : IfRow), rbeq a b = true ↔ a = b
  | .mk ca va, .mk cb vb => by
    rw [rbeq, Bool.and_eq_true, cbeqList_iff ca cb, cbeqList_iff va vb]
    simp

theorem rbeqList_iff : ∀ (a b : List IfRow), rbeqList a b = true ↔ a = b
  | [], [] => by simp [rbeqList]
  | [], _ :: _ => by simp [rbeqList]
  | _ :: _, [] => by simp [rbeqList]
  | a :: as, b :: bs => by
    rw [rbeqList, Bool.and_eq_true, rbeq_iff a b, rbeqList_iff as bs]
    simp

theorem cbeqList_iff : ∀ (a b : List Child), cbeqList a b = true ↔ a = b
  | [], [] => by simp [cbeqList]
  | [], _ :: _ => by simp [cbeqList]
  | _ :: _, [] => by simp [cbeqList]
  | a :: as, b :: bs => by
    rw [cbeqList, Bool.and_eq_true, cbeq_iff a b, cbeqList_iff as bs]
    simp

end

instance : DecidableEq Child := fun a b =>
  decidable_of_iff (cbeq a b = true) (cbeq_iff a b)

instance : DecidableEq If := fun a b =>
  decidable_of_iff (ibeq a b = true) (ibeq_iff a b)

instance : DecidableEq IfRow := fun a b =>
  decidable_of_iff (rbeq a b = true) (rbeq_iff a b)

instance : DecidableEq Item := fun a b =>
  decidable_of_iff
    (a.kind = b.kind ∧ a.name = b.name ∧ a.children = b.children ∧
      a.comment_item = b.comment_item ∧ a.comment_equation = b.comment_equation)
    (by
      constructor
      · rintro ⟨h1, h2, h3, h4, h5⟩
        rcases a with ⟨⟩
        rcases b with ⟨⟩
        simp_all
      · intro h
        subst h
        exact ⟨rfl, rfl, rfl, rfl, rfl⟩)

instance : DecidableEq CSItem := fun a b =>
  match a, b with
  | .item x, .item y =>
    decidable_of_iff (x = y) (by constructor <;> (intro h; simp_all))
  | .ifExpr x, .ifExpr y =>
    decidable_of_iff (x = y) (by constructor <;> (intro h; simp_all))
  | .ifRow x, .ifRow y =>
    decidable_of_iff (x = y) (by constructor <;> (intro h; simp_all))
  | .item _, .ifExpr _ => isFalse (by intro h; cases h)
  | .item _, .ifRow _ => isFalse (by intro h; cases h)
  | .ifExpr _, .item _ => isFalse (by intro h; cases h)
  | .ifExpr _, .ifRow _ => isFalse (by intro h; cases h)
  | .ifRow _, .item _ => isFalse (by intro h; cases h)
  | .ifRow _, .ifExpr _ => isFalse (by intro h; cases h)

instance : DecidableEq CalcSet := fun a b =>
  decidable_of_iff (a.items = b.items)
    (by constructor <;> (intro h; rcases a with ⟨⟩; rcases b with ⟨⟩; simp_all))

/-! ## Well-formed calculation sets

The documented data model (spec §3): expression children are text fragments
or nested conditionals (no passthrough values), and the set holds `Item`s
(not bare `If`/`IfRow` objects). -/

mutual

def Child.wf : Child → Bool
  | .text _ => true
  | .cond i => If.wf i
  | .raw _ => false

def childrenWf : List Child → Bool
  | [] => true
  | c :: cs => Child.wf c && childrenWf cs

def If.wf : If → Bool
  | .mk rows otherwise => rowsWf rows && childrenWf otherwise

def rowsWf : List IfRow → Bool
  | [] => true
  | .mk c v :: rs => childrenWf c && childrenWf v && rowsWf rs

end

def CSItem.wf : CSItem → Bool
  | .item it => childrenWf it.children
  | .ifExpr _ => false
  | .ifRow _ => false

def CalcSet.wf (cs : CalcSet) : Bool := cs.items.all CSItem.wf

/-! ## Round-trip helper lemmas -/

theorem dispatchList_append {xs ys : List Json} {a b : List Child}
    (hx : dispatchList xs = .ok a) (hy : dispatchList ys = .ok b) :
    dispatchList (xs ++ ys) = .ok (a ++ b) := by
  induction xs generalizing a with
  | nil =>
    rw [dispatchList] at hx
    simp only [Except.ok.injEq] at hx
    subst hx
    simpa using hy
  | cons x rest ih =>
    rw [dispatchList] at hx
    rw [List.cons_append, dispatchList]
    cases hd : dispatch_expression x with
    | error e => rw [hd] at hx; exact absurd hx (by simp)
    | ok c =>
      rw [hd] at hx
      cases hr : dispatchList rest with
      | error e => rw [hr] at hx; exact absurd hx (by simp)
      | ok cs =>
        rw [hr] at hx
        simp only [Except.ok.injEq] at hx
        subst hx
        rw [ih hr]
        rfl

theorem childrenToJson_append {xs ys : List Child} {a b : List Json}
    (hx : childrenToJson xs = some a) (hy : childrenToJson ys = some b) :
    childrenToJson (xs ++ ys) = some (a ++ b) := by
  induction xs generalizing a with
  | nil =>
    rw [childrenToJson] at hx
    simp only [Option.some.injEq] at hx
    subst hx
    simpa using hy
  | cons x rest ih =>
    rw [childrenToJson] at hx
    rw [List.cons_append, childrenToJson]
    cases hd : Child.to_dict x with
    | none => rw [hd] at hx; exact absurd hx (by simp)
    | some c =>
      rw [hd] at hx
      cases hr : childrenToJson rest with
      | none => rw [hr] at hx; exact absurd hx (by simp)
      | some cs =>
        rw [hr] at hx
        simp only [Option.some.injEq] at hx
        subst hx
        rw [ih hr]
        rfl

theorem childrenWf_append {xs ys : List Child}
    (hx : childrenWf xs = true) (hy : childrenWf ys = true) :
    childrenWf (xs ++ ys) = true := by
  induction xs with
  | nil => simpa using hy
  | cons x rest ih =>
    rw [childrenWf] at hx
    rw [List.cons_append, childrenWf]
    rw [Bool.and_eq_true] at hx ⊢
    exact ⟨hx.1, ih hx.2⟩

/-- The two pads `guard_strings` may add: nothing, or one empty string. -/
def PadOk (p : List Json) : Prop := p = [] ∨ p = [Json.str ""]

theorem pad_dispatch {p : List Json} (h : PadOk p) :
    ∃ cp, dispatchList p = .ok cp ∧ childrenWf cp = true ∧
      childrenToJson cp = some p := by
  rcases h with h | h <;> subst h
  · exact ⟨[], by rw [dispatchList], by rw [childrenWf], by rw [childrenToJson]⟩
  · refine ⟨[.text ""], ?_, ?_, ?_⟩
    · rw [dispatchList, dispatch_expression, dispatchList]
    · rw [childrenWf, Child.wf, childrenWf]; rfl
    · rw [childrenToJson, Child.to_dict, childrenToJson]

/-- Decomposition of a successful `guard_strings`: the output wraps the input
in two optional empty-string pads and starts and ends with strings. -/
theorem guard_strings_spec {l lp : List Json} (h : guard_strings l = some lp) :
    (∃ pre post, PadOk pre ∧ PadOk post ∧ lp = pre ++ l ++ post) ∧
      (∃ h0 t0, lp = h0 :: t0 ∧ h0.isStr = true) ∧
      (lp.getLast? ).all Json.isStr = true := by
  cases l with
  | nil => rw [guard_strings] at h; exact absurd h (by simp)
  | cons x xs =>
    rw [guard_strings] at h
    simp only [Option.some.injEq] at h
    by_cases h1 : Json.isStr x <;>
      by_cases h2 : Json.isStr ((x :: xs).getLast (List.cons_ne_nil x xs)) <;>
        simp only [h1, h2, if_true, if_false, Bool.false_eq_true] at h <;> subst h
    · refine ⟨⟨[], [], Or.inl rfl, Or.inl rfl, by simp⟩, ⟨x, xs, rfl, h1⟩, ?_⟩
      rw [List.getLast?_eq_getLast _ (List.cons_ne_nil x xs)]
      simpa using h2
    · refine ⟨⟨[], [Json.str ""], Or.inl rfl, Or.inr rfl, by simp⟩,
        ⟨x, xs ++ [Json.str ""], by simp, h1⟩, ?_⟩
      have : (x :: xs) ++ [Json.str ""] = x :: (xs ++ [Json.str ""]) := by simp
      rw [List.getLast?_eq_getLast _ (by simp)]
      rw [List.getLast_append_singleton]
      rfl
    · refine ⟨⟨[Json.str ""], [], Or.inr rfl, Or.inl rfl, by simp⟩,
        ⟨Json.str "", x :: xs, by simp, rfl⟩, ?_⟩
      rw [List.getLast?_eq_getLast _ (by simp)]
      rw [List.getLast_cons (List.cons_ne_nil x xs)]
      simpa using h2
    · refine ⟨⟨[Json.str ""], [Json.str ""], Or.inr rfl, Or.inr rfl, by simp⟩,
        ⟨Json.str "", x :: xs ++ [Json.str ""], by simp, rfl⟩, ?_⟩
      rw [List.getLast?_eq_getLast _ (by simp)]
      have hrw : Json.str "" :: x :: xs ++ [Json.str ""] =
          (Json.str "" :: x :: xs) ++ [Json.str ""] := by simp
      rw [List.getLast_congr _ _ hrw, List.getLast_append_singleton]
      rfl

/-- A list that starts and ends with strings is a fixed point of
`guard_strings` and of `ensure_str_list`. -/
theorem guard_strings_fix (h0 : Json) (t0 : List Json)
    (hh : h0.isStr = true)
    (hl : ((h0 :: t0).getLast? ).all Json.isStr = true) :
    guard_strings (h0 :: t0) = some (h0 :: t0) ∧
      ensureStrListJ (Json.arr (h0 :: t0)) = .ok (h0 :: t0) := by
  have hlast : Json.isStr ((h0 :: t0).getLast (List.cons_ne_nil h0 t0)) = true := by
    rw [List.getLast?_eq_getLast _ (List.cons_ne_nil h0 t0)] at hl
    simpa using hl
  constructor
  · rw [guard_strings]
    simp only [hh, hlast, if_true]
  · rw [ensureStrListJ]
    simp only [ensureListJ]
    simp only [hh, hlast, if_true]

/-- Shape of a serialized conditional. -/
theorem if_to_dict_shape {i : If} {j : Json} (h : If.to_dict i = some j) :
    ∃ rjs goj, j = .obj [("type", .str "if"), ("rows", .arr rjs),
      ("otherwise", .obj [("type", .str "list"), ("children", .arr goj)])] := by
  cases i with
  | mk rows otherwise =>
    rw [If.to_dict] at h
    cases h1 : rowsToJson rows with
    | none => rw [h1] at h; exact absurd h (by simp)
    | some rjs =>
      rw [h1] at h
      cases h2 : childrenToJson otherwise with
      | none => rw [h2] at h; exact absurd h (by simp)
      | some ojs =>
        rw [h2] at h
        dsimp only at h
        cases h3 : guard_strings ojs with
        | none => rw [h3] at h; exact absurd h (by simp)
        | some goj =>
          rw [h3] at h
          simp only [Option.some.injEq] at h
          exact ⟨rjs, goj, h.symm⟩

/-- Shape of a serialized conditional row. -/
theorem ifrow_to_dict_shape {r : IfRow} {j : Json} (h : IfRow.to_dict r = some j) :
    ∃ cjs vjs, j = .obj [("type", .str "if_row"),
      ("test", .obj [("type", .str "list"), ("children", .arr cjs)]),
      ("result", .obj [("type", .str "list"), ("children", .arr vjs)])] := by
  cases r with
  | mk condition value =>
    rw [IfRow.to_dict] at h
    cases h1 : childrenToJson condition with
    | none => rw [h1] at h; exact absurd h (by simp)
    | some cjs =>
      rw [h1] at h
      cases h2 : childrenToJson value with
      | none => rw [h2] at h; exact absurd h (by simp)
      | some vjs0 =>
        rw [h2] at h
        dsimp only at h
        cases h3 : guard_strings vjs0 with
        | none => rw [h3] at h; exact absurd h (by simp)
        | some vjs =>
          rw [h3] at h
          simp only [Option.some.injEq] at h
          exact ⟨cjs, vjs, h.symm⟩

mutual

/-- Decoding inverts encoding for one well-formed expression child, and the
decoded child re-encodes to the same JSON. -/
theorem rt_child : ∀ (c : Child) (j : Json), Child.wf c = true →
    Child.to_dict c = some j →
    ∃ c2, dispatch_expression j = .ok c2 ∧ Child.wf c2 = true ∧
      Child.to_dict c2 = some j
  | .text s, j, _, hd => by
    rw [Child.to_dict] at hd
    simp only [Option.some.injEq] at hd
    subst hd
    exact ⟨.text s, by rw [dispatch_expression], rfl, by rw [Child.to_dict]⟩
  | .cond i, j, hwf, hd => by
    rw [Child.wf] at hwf
    rw [Child.to_dict] at hd
    obtain ⟨i2, hfd, hwf2, hdict2⟩ := rt_if i j hwf hd
    obtain ⟨rjs, goj, hshape⟩ := if_to_dict_shape hd
    subst hshape
    refine ⟨.cond i2, ?_, by rw [Child.wf]; exact hwf2, by rw [Child.to_dict]; exact hdict2⟩
    rw [dispatch_expression]
    simp [pyLookup, hfd]
  | .raw j0, j, hwf, hd => by
    rw [Child.wf] at hwf
    exact absurd hwf (by simp)

/-- Element-wise decoding of a well-formed children list. -/
theorem rt_children : ∀ (cs : List Child) (l : List Json), childrenWf cs = true →
    childrenToJson cs = some l →
    ∃ cs2, dispatchList l = .ok cs2 ∧ childrenWf cs2 = true ∧
      childrenToJson cs2 = some l
  | [], l, _, hd => by
    rw [childrenToJson] at hd
    simp only [Option.some.injEq] at hd
    subst hd
    exact ⟨[], by rw [dispatchList], rfl, by rw [childrenToJson]⟩
  | c :: cs, l, hwf, hd => by
    rw [childrenWf, Bool.and_eq_true] at hwf
    rw [childrenToJson] at hd
    cases h1 : Child.to_dict c with
    | none => rw [h1] at hd; exact absurd hd (by simp)
    | some jc =>
      rw [h1] at hd
      cases h2 : childrenToJson cs with
      | none => rw [h2] at hd; exact absurd hd (by simp)
      | some jcs =>
        rw [h2] at hd
        simp only [Option.some.injEq] at hd
        subst hd
        obtain ⟨c2, hc2, hw2, hj2⟩ := rt_child c jc hwf.1 h1
        obtain ⟨cs2, hcs2, hws2, hjs2⟩ := rt_children cs jcs hwf.2 h2
        refine ⟨c2 :: cs2, ?_, ?_, ?_⟩
        · rw [dispatchList, hc2, hcs2]
        · rw [childrenWf, Bool.and_eq_true]; exact ⟨hw2, hws2⟩
        · rw [childrenToJson, hj2, hjs2]

/-- Like `rt_children`, through the `guard_strings` padding: decoding the
padded list succeeds and re-encodes to the padded list itself. -/
theorem rt_children_guarded : ∀ (cs : List Child) (l lp : List Json),
    childrenWf cs = true → childrenToJson cs = some l →
    guard_strings l = some lp →
    ∃ cs2, dispatchList lp = .ok cs2 ∧ childrenWf cs2 = true ∧
      childrenToJson cs2 = some lp
  | cs, l, lp, hwf, hd, hg => by
    obtain ⟨⟨pre, post, hpre, hpost, hlp⟩, _, _⟩ := guard_strings_spec hg
    subst hlp
    obtain ⟨cs2, hdisp, hw2, hj2⟩ := rt_children cs l hwf hd
    obtain ⟨cpre, hpre1, hpre2, hpre3⟩ := pad_dispatch hpre
    obtain ⟨cpost, hpost1, hpost2, hpost3⟩ := pad_dispatch hpost
    refine ⟨cpre ++ cs2 ++ cpost, ?_, ?_, ?_⟩
    · exact dispatchList_append (dispatchList_append hpre1 hdisp) hpost1
    · exact childrenWf_append (childrenWf_append hpre2 hw2) hpost2
    · exact childrenToJson_append (childrenToJson_append hpre3 hj2) hpost3

/-- Decoding inverts encoding for one well-formed conditional. -/
theorem rt_if : ∀ (i : If) (j : Json), If.wf i = true → If.to_dict i = some j →
    ∃ i2, If.from_dict j = .ok i2 ∧ If.wf i2 = true ∧ If.to_dict i2 = some j
  | .mk rows otherwise, j, hwf, hd => by
    rw [If.wf, Bool.and_eq_true] at hwf
    rw [If.to_dict] at hd
    cases h1 : rowsToJson rows with
    | none => rw [h1] at hd; exact absurd hd (by simp)
    | some rjs =>
      rw [h1] at hd
      cases h2 : childrenToJson otherwise with
      | none => rw [h2] at hd; exact absurd hd (by simp)
      | some ojs =>
        rw [h2] at hd
        dsimp only at hd
        cases h3 : guard_strings ojs with
        | none => rw [h3] at hd; exact absurd hd (by simp)
        | some goj =>
          rw [h3] at hd
          simp only [Option.some.injEq] at hd
          subst hd
          obtain ⟨rows2, hrf, hrw2, hrj2⟩ := rt_rows rows rjs hwf.1 h1
          obtain ⟨oth2, hodisp, how2, hoj2⟩ :=
            rt_children_guarded otherwise ojs goj hwf.2 h2 h3
          obtain ⟨_, ⟨g0, gt, hgoj, hghead⟩, hglast⟩ := guard_strings_spec h3
          subst hgoj
          have hfix := guard_strings_fix g0 gt hghead hglast
          refine ⟨If.mk rows2 oth2, ?_, ?_, ?_⟩
          · simp [If.from_dict.eq_def, getKey, pyLookup, ensureListJ, hrf]
            split
            next e h4 =>
              rw [hfix.2] at h4
              exact absurd h4 (by simp)
            next padded h4 =>
              rw [hfix.2] at h4
              simp only [Except.ok.injEq] at h4
              subst h4
              simp [hodisp]
          · rw [If.wf, Bool.and_eq_true]; exact ⟨hrw2, how2⟩
          · rw [If.to_dict, hrj2, hoj2]
            dsimp only
            rw [hfix.1]

/-- Decoding inverts encoding for a list of well-formed rows. -/
theorem rt_rows : ∀ (rows : List IfRow) (l : List Json), rowsWf rows = true →
    rowsToJson rows = some l →
    ∃ rows2, rowsFromJson l = .ok rows2 ∧ rowsWf rows2 = true ∧
      rowsToJson rows2 = some l
  | [], l, _, hd => by
    rw [rowsToJson] at hd
    simp only [Option.some.injEq] at hd
    subst hd
    exact ⟨[], by rw [rowsFromJson], rfl, by rw [rowsToJson]⟩
  | .mk c v :: rs, l, hwf, hd => by
    rw [rowsWf, Bool.and_eq_true, Bool.and_eq_true] at hwf
    rw [rowsToJson] at hd
    cases h1 : IfRow.to_dict (.mk c v) with
    | none => rw [h1] at hd; exact absurd hd (by simp)
    | some jr =>
      rw [h1] at hd
      cases h2 : rowsToJson rs with
      | none => rw [h2] at hd; exact absurd hd (by simp)
      | some jrs =>
        rw [h2] at hd
        simp only [Option.some.injEq] at hd
        subst hd
        obtain ⟨r2, hr2, hw2, hj2⟩ :=
          rt_row (IfRow.mk c v) jr (by rw [Bool.and_eq_true]; exact ⟨hwf.1.1, hwf.1.2⟩) h1
        obtain ⟨rs2, hrs2, hws2, hjs2⟩ := rt_rows rs jrs hwf.2 h2
        obtain ⟨cjs, vjs, hshape⟩ := ifrow_to_dict_shape h1
        subst hshape
        cases r2 with
        | mk c2 v2 =>
          refine ⟨IfRow.mk c2 v2 :: rs2, ?_, ?_, ?_⟩
          · rw [rowsFromJson, hr2, hrs2]
          · rw [rowsWf, Bool.and_eq_true, Bool.and_eq_true]
            rw [Bool.and_eq_true] at hw2
            exact ⟨⟨hw2.1, hw2.2⟩, hws2⟩
          · rw [rowsToJson, hj2, hjs2]

/-- Decoding inverts encoding for one well-formed row.  The well-formedness
hypothesis carries both children lists. -/
theorem rt_row : ∀ (r : IfRow) (j : Json),
    (childrenWf r.condition && childrenWf r.value) = true →
    IfRow.to_dict r = some j →
    ∃ r2, IfRow.from_dict j = .ok r2 ∧
      (childrenWf r2.condition && childrenWf r2.value) = true ∧
      IfRow.to_dict r2 = some j
  | .mk c v, j, hwf, hd => by
    rw [IfRow.condition, IfRow.value, Bool.and_eq_true] at hwf
    rw [IfRow.to_dict] at hd
    cases h1 : childrenToJson c with
    | none => rw [h1] at hd; exact absurd hd (by simp)
    | some cjs =>
      rw [h1] at hd
      cases h2 : childrenToJson v with
      | none => rw [h2] at hd; exact absurd hd (by simp)
      | some vjs0 =>
        rw [h2] at hd
        dsimp only at hd
        cases h3 : guard_strings vjs0 with
        | none => rw [h3] at hd; exact absurd hd (by simp)
        | some vjs =>
          rw [h3] at hd
          simp only [Option.some.injEq] at hd
          subst hd
          obtain ⟨c2, hcdisp, hcw2, hcj2⟩ := rt_children c cjs hwf.1 h1
          obtain ⟨v2, hvdisp, hvw2, hvj2⟩ :=
            rt_children_guarded v vjs0 vjs hwf.2 h2 h3
          obtain ⟨_, ⟨g0, gt, hgoj, hghead⟩, hglast⟩ := guard_strings_spec h3
          subst hgoj
          have hfix := guard_strings_fix g0 gt hghead hglast
          refine ⟨IfRow.mk c2 v2, ?_, ?_, ?_⟩
          · simp [IfRow.from_dict.eq_def, getKey, pyLookup, ensureListJ, hcdisp]
            split
            next e h4 =>
              rw [hfix.2] at h4
              exact absurd h4 (by simp)
            next padded h4 =>
              rw [hfix.2] at h4
              simp only [Except.ok.injEq] at h4
              subst h4
              simp [hvdisp]
          · rw [IfRow.condition, IfRow.value, Bool.and_eq_true]
            exact ⟨hcw2, hvw2⟩
          · rw [IfRow.to_dict, hcj2, hvj2]
            dsimp only
            rw [hfix.1]

end

/-- Decoding inverts encoding for one well-formed `Item`: the serialized dict
routes through `CalcSet.from_dict`'s registry back to the same subclass, and
the rebuilt item re-serializes to the same dict. -/
theorem rt_item (it : Item) (j : Json) (hwf : childrenWf it.children = true)
    (hd : Item.to_dict it = some j) :
    ∃ it2 : Item, csItemFromJson j = .ok (.item it2) ∧
      childrenWf it2.children = true ∧ Item.to_dict it2 = some j := by
  rcases it with ⟨k, name, children, ci, ce⟩
  rw [Item.to_dict] at hd
  dsimp only at hd hwf
  cases h1 : childrenToJson children with
  | none => rw [h1] at hd; exact absurd hd (by simp)
  | some cjs =>
    rw [h1] at hd
    dsimp only at hd
    cases h2 : guard_strings cjs with
    | none => rw [h2] at hd; exact absurd hd (by simp)
    | some gcs =>
      rw [h2] at hd
      dsimp only at hd
      simp only [Option.some.injEq] at hd
      subst hd
      obtain ⟨cs2, hdisp, hw2, hj2⟩ := rt_children_guarded children cjs gcs hwf h1 h2
      obtain ⟨_, ⟨g0, gt, hg, hghead⟩, hglast⟩ := guard_strings_spec h2
      subst hg
      refine ⟨⟨k, name, cs2, ci, ce⟩, ?_, hw2, ?_⟩
      · cases k <;>
          simp [csItemFromJson, Item.from_dict, getKey, pyLookup, dictGet,
            item_type, calculation_type, ensureListJ, hdisp]
      · have hfix := guard_strings_fix g0 gt hghead hglast
        cases k <;> simp [Item.to_dict, calculation_type, hj2, hfix.1]

/-- Every serialized member of a calculation set comes from one of its
elements. -/
theorem csItemsToJson_mem {items : List CSItem} {l : List Json}
    (h : csItemsToJson items = some l) :
    ∀ j ∈ l, ∃ x ∈ items, CSItem.to_dict x = some j := by
  induction items generalizing l with
  | nil =>
    rw [csItemsToJson] at h
    simp only [Option.some.injEq] at h
    subst h
    intro j hj
    simp at hj
  | cons x xs ih =>
    rw [csItemsToJson] at h
    cases h1 : CSItem.to_dict x with
    | none => rw [h1] at h; exact absurd h (by simp)
    | some jx =>
      rw [h1] at h
      cases h2 : csItemsToJson xs with
      | none => rw [h2] at h; exact absurd h (by simp)
      | some jxs =>
        rw [h2] at h
        simp only [Option.some.injEq] at h
        subst h
        intro j hj
        rcases List.mem_cons.mp hj with hj | hj
        · exact ⟨x, List.mem_cons_self x xs, hj ▸ h1⟩
        · obtain ⟨y, hy, hyd⟩ := ih h2 j hj
          exact ⟨y, List.mem_cons_of_mem x hy, hyd⟩

/-- Decoding a list of dicts that each decode and re-encode pointwise. -/
theorem csItemsFromJson_of_pointwise {l : List Json}
    (h : ∀ j ∈ l, ∃ c2, csItemFromJson j = .ok c2 ∧ CSItem.wf c2 = true ∧
      CSItem.to_dict c2 = some j) :
    ∃ m, csItemsFromJson l = .ok m ∧ (∀ x ∈ m, CSItem.wf x = true) ∧
      csItemsToJson m = some l := by
  induction l with
  | nil =>
    exact ⟨[], by rw [csItemsFromJson], by intro x hx; simp at hx,
      by rw [csItemsToJson]⟩
  | cons j js ih =>
    obtain ⟨c2, hc2, hw2, hj2⟩ := h j (List.mem_cons_self j js)
    obtain ⟨m, hm, hmw, hmj⟩ := ih (fun x hx => h x (List.mem_cons_of_mem j hx))
    refine ⟨c2 :: m, ?_, ?_, ?_⟩
    · rw [csItemsFromJson, hc2, hm]
    · intro x hx
      rcases List.mem_cons.mp hx with hx | hx
      · exact hx ▸ hw2
      · exact hmw x hx
    · rw [csItemsToJson, hj2, hmj]

/-! ## The stable sort of `CalcSet.to_dict` -/

theorem mem_insertByKey {y x : Json} {l : List Json} :
    y ∈ insertByKey x l ↔ y = x ∨ y ∈ l := by
  induction l with
  | nil => simp [insertByKey]
  | cons b bs ih =>
    rw [insertByKey]
    by_cases hb : itemOrderKey x ≤ itemOrderKey b
    · simp [hb]
    · simp only [hb, if_false, List.mem_cons, ih]
      tauto

theorem mem_pySortItems {y : Json} {l : List Json} :
    y ∈ pySortItems l ↔ y ∈ l := by
  induction l with
  | nil => simp [pySortItems]
  | cons x xs ih =>
    rw [pySortItems, mem_insertByKey]
    simp [ih]

/-- The comparison used by the stable sort. -/
def keyLE (a b : Json) : Prop := itemOrderKey a ≤ itemOrderKey b

theorem pairwise_insertByKey {x : Json} {l : List Json}
    (h : l.Pairwise keyLE) : (insertByKey x l).Pairwise keyLE := by
  induction l with
  | nil => simp [insertByKey]
  | cons b bs ih =>
    rw [List.pairwise_cons] at h
    rw [insertByKey]
    by_cases hb : itemOrderKey x ≤ itemOrderKey b
    · rw [if_pos hb, List.pairwise_cons]
      constructor
      · intro y hy
        rcases List.mem_cons.mp hy with hy | hy
        · exact hy ▸ hb
        · exact le_trans hb (h.1 y hy)
      · rw [List.pairwise_cons]
        exact h
    · rw [if_neg hb, List.pairwise_cons]
      refine ⟨?_, ih h.2⟩
      intro y hy
      rcases mem_insertByKey.mp hy with hy | hy
      · subst hy
        exact le_of_not_le hb
      · exact h.1 y hy

theorem pairwise_pySortItems (l : List Json) : (pySortItems l).Pairwise keyLE := by
  induction l with
  | nil => simp [pySortItems]
  | cons x xs ih =>
    rw [pySortItems]
    exact pairwise_insertByKey ih

/-- A list already sorted by the key is a fixed point of the stable sort. -/
theorem pySortItems_of_pairwise {l : List Json}
    (h : l.Pairwise keyLE) : pySortItems l = l := by
  induction l with
  | nil => rw [pySortItems]
  | cons x xs ih =>
    rw [List.pairwise_cons] at h
    rw [pySortItems, ih h.2]
    cases xs with
    | nil => rw [insertByKey]
    | cons y ys =>
      rw [insertByKey,
        if_pos (show itemOrderKey x ≤ itemOrderKey y from h.1 y (List.mem_cons_self y ys))]

/-- Round trip for one well-formed calculation-set element. -/
theorem rt_csitem (x : CSItem) (j : Json) (hwf : CSItem.wf x = true)
    (hd : CSItem.to_dict x = some j) :
    ∃ c2, csItemFromJson j = .ok c2 ∧ CSItem.wf c2 = true ∧
      CSItem.to_dict c2 = some j := by
  cases x with
  | item it =>
    rw [CSItem.wf] at hwf
    rw [CSItem.to_dict] at hd
    obtain ⟨it2, h1, h2, h3⟩ := rt_item it j hwf hd
    exact ⟨.item it2, h1, by rw [CSItem.wf]; exact h2,
      by rw [CSItem.to_dict]; exact h3⟩
  | ifExpr i => rw [CSItem.wf] at hwf; exact absurd hwf (by simp)
  | ifRow r => rw [CSItem.wf] at hwf; exact absurd hwf (by simp)

/-- **C1.**  For every well-formed CalcSet that the binary codec can write
(`to_lfcalc` with the default `sort_items=True` succeeds), reading the file
back with `read_lfcalc` succeeds and yields a CalcSet whose sorted dictionary
form `to_dict(sort_items=True)` equals that of the original. -/
theorem codec_roundtrip (cs : CalcSet) (hwf : cs.wf = true) (f : LfcalcFile)
    (h : cs.to_lfcalc true = some f) :
    ∃ cs2, read_lfcalc f = .ok cs2 ∧ cs2.to_dict true = cs.to_dict true := by
  rw [CalcSet.to_lfcalc] at h
  cases hp : cs.to_dict true with
  | none => rw [hp] at h; exact absurd h (by simp)
  | some payload =>
    rw [hp] at h
    simp only [Option.some.injEq] at h
    subst h
    rw [CalcSet.to_dict] at hp
    cases hl : csItemsToJson cs.items with
    | none => rw [hl] at hp; exact absurd hp (by simp)
    | some l =>
      rw [hl] at hp
      simp only [if_true, Option.some.injEq] at hp
      have hpoint : ∀ j ∈ pySortItems l, ∃ c2, csItemFromJson j = .ok c2 ∧
          CSItem.wf c2 = true ∧ CSItem.to_dict c2 = some j := by
        intro j hj
        obtain ⟨x, hx, hxd⟩ := csItemsToJson_mem hl j (mem_pySortItems.mp hj)
        have hxwf : CSItem.wf x = true := by
          rw [CalcSet.wf, List.all_eq_true] at hwf
          exact hwf x hx
        exact rt_csitem x j hxwf hxd
      obtain ⟨m, hm, hmw, hmj⟩ := csItemsFromJson_of_pointwise hpoint
      refine ⟨⟨m⟩, ?_, ?_⟩
      · rw [read_lfcalc]
        rw [← hp]
        simp [CalcSet.from_dict, getKey, pyLookup, itemsIter, hm]
      · rw [CalcSet.to_dict.eq_def]
        dsimp only
        rw [hmj]
        dsimp only
        rw [pySortItems_of_pairwise (pairwise_pySortItems l)]
        subst hp
        simp

/-- Concrete use of C1: a two-item set (a Number and a Variable). -/
def csWitness : CalcSet :=
  ⟨[.item ⟨.Number, "n1", [.text "1+2"], "", ""⟩,
    .item ⟨.Variable, "v1", [.text "foo"], "", ""⟩]⟩

/-- Witness for C1 at `csWitness`: the hypotheses hold and the round trip
goes through. -/
theorem codec_roundtrip_witness :
    ∃ f, csWitness.to_lfcalc true = some f ∧
      ∃ cs2, read_lfcalc f = .ok cs2 ∧
        cs2.to_dict true = csWitness.to_dict true :=
  ⟨_, rfl, codec_roundtrip csWitness (by decide) _ rfl⟩

/-! ## The three-bucket decomposition of the stable sort (claim C3) -/

/-- Whether a serialized item's `"type"` field is the string `t`. -/
def typeIs (t : String) (x : Json) : Bool :=
  match x with
  | .obj kvs => decide (pyLookup kvs "type" = some (Json.str t))
  | _ => false

theorem ITEM_ORDER_get_eq0 (v : Json) :
    (ITEM_ORDER_get v = 0) ↔ v = Json.str "variable" := by
  unfold ITEM_ORDER_get
  split_ifs with h1 h2 h3 <;> simp_all

theorem ITEM_ORDER_get_eq1 (v : Json) :
    (ITEM_ORDER_get v = 1) ↔ v = Json.str "calculation" := by
  unfold ITEM_ORDER_get
  split_ifs with h1 h2 h3 <;> simp_all

theorem ITEM_ORDER_get_eq2 (v : Json) :
    (ITEM_ORDER_get v = 2) ↔ v = Json.str "filter" := by
  unfold ITEM_ORDER_get
  split_ifs with h1 h2 h3 <;> simp_all

theorem typeIs_variable_key (x : Json) :
    typeIs "variable" x = (itemOrderKey x == 0) := by
  cases x <;> simp only [typeIs, itemOrderKey] <;> try rfl
  case obj kvs =>
    cases hv : pyLookup kvs "type" with
    | none => simp [ITEM_ORDER_get]
    | some v =>
      simp only [Option.getD, Option.some.injEq]
      rw [Bool.eq_iff_iff]
      simp [Nat.beq_eq, ITEM_ORDER_get_eq0]

theorem typeIs_calculation_key (x : Json) :
    typeIs "calculation" x = (itemOrderKey x == 1) := by
  cases x <;> simp only [typeIs, itemOrderKey] <;> try rfl
  case obj kvs =>
    cases hv : pyLookup kvs "type" with
    | none => simp [ITEM_ORDER_get]
    | some v =>
      simp only [Option.getD, Option.some.injEq]
      rw [Bool.eq_iff_iff]
      simp [Nat.beq_eq, ITEM_ORDER_get_eq1]

theorem typeIs_filter_key (x : Json) :
    typeIs "filter" x = (itemOrderKey x == 2) := by
  cases x <;> simp only [typeIs, itemOrderKey] <;> try rfl
  case obj kvs =>
    cases hv : pyLookup kvs "type" with
    | none => simp [ITEM_ORDER_get]
    | some v =>
      simp only [Option.getD, Option.some.injEq]
      rw [Bool.eq_iff_iff]
      simp [Nat.beq_eq, ITEM_ORDER_get_eq2]

theorem itemOrderKey_mem_cases (x : Json) :
    itemOrderKey x = 0 ∨ itemOrderKey x = 1 ∨ itemOrderKey x = 2 ∨
      itemOrderKey x = 99 := by
  cases x <;> simp only [itemOrderKey] <;> try simp
  case obj kvs =>
    unfold ITEM_ORDER_get
    split_ifs <;> simp

/-- The bucket of one key value. -/
def keyFilter (k : Nat) (l : List Json) : List Json :=
  l.filter (fun x => itemOrderKey x == k)

theorem mem_keyFilter {b : Json} {k : Nat} {l : List Json}
    (h : b ∈ keyFilter k l) : itemOrderKey b = k := by
  have := List.of_mem_filter h
  simpa using this

theorem insertByKey_skip {x : Json} {A B : List Json}
    (h : ∀ a ∈ A, itemOrderKey a < itemOrderKey x) :
    insertByKey x (A ++ B) = A ++ insertByKey x B := by
  induction A with
  | nil => simp
  | cons a as ih =>
    rw [List.cons_append, insertByKey,
      if_neg (by
        have := h a (List.mem_cons_self a as)
        omega)]
    rw [ih (fun b hb => h b (List.mem_cons_of_mem a hb))]
    rfl

theorem insertByKey_front {x : Json} {B : List Json}
    (h : ∀ b ∈ B, itemOrderKey x ≤ itemOrderKey b) :
    insertByKey x B = x :: B := by
  cases B with
  | nil => rw [insertByKey]
  | cons b bs => rw [insertByKey, if_pos (h b (List.mem_cons_self b bs))]

/-- The stable sort is exactly the concatenation of the four key buckets in
ascending key order, each keeping its input order. -/
theorem pySortItems_buckets (l : List Json) :
    pySortItems l =
      keyFilter 0 l ++ keyFilter 1 l ++ keyFilter 2 l ++ keyFilter 99 l := by
  induction l with
  | nil => simp [pySortItems, keyFilter]
  | cons x xs ih =>
    rw [pySortItems, ih]
    have hf : ∀ k : Nat, itemOrderKey x = k →
        keyFilter k (x :: xs) = x :: keyFilter k xs := by
      intro k hk
      simp [keyFilter, List.filter_cons, hk]
    have hf2 : ∀ k : Nat, itemOrderKey x ≠ k →
        keyFilter k (x :: xs) = keyFilter k xs := by
      intro k hk
      simp [keyFilter, List.filter_cons, hk]
    rcases itemOrderKey_mem_cases x with hk | hk | hk | hk
    · rw [hf 0 hk, hf2 1 (by omega), hf2 2 (by omega), hf2 99 (by omega)]
      rw [insertByKey_front (by intro b hb; omega)]
      simp
    · rw [hf2 0 (by omega), hf 1 hk, hf2 2 (by omega), hf2 99 (by omega)]
      rw [List.append_assoc, List.append_assoc]
      rw [insertByKey_skip (by
        intro a ha
        have := mem_keyFilter ha
        omega)]
      rw [insertByKey_front (by
        intro b hb
        rcases List.mem_append.mp hb with hb | hb
        · have := mem_keyFilter hb; omega
        · rcases List.mem_append.mp hb with hb | hb
          · have := mem_keyFilter hb; omega
          · have := mem_keyFilter hb; omega)]
      simp
    · rw [hf2 0 (by omega), hf2 1 (by omega), hf 2 hk, hf2 99 (by omega)]
      rw [List.append_assoc]
      rw [insertByKey_skip (by
        intro a ha
        rcases List.mem_append.mp ha with ha | ha
        · have := mem_keyFilter ha; omega
        · have := mem_keyFilter ha; omega)]
      rw [insertByKey_front (by
        intro b hb
        rcases List.mem_append.mp hb with hb | hb
        · have := mem_keyFilter hb; omega
        · have := mem_keyFilter hb; omega)]
      simp
    · rw [hf2 0 (by omega), hf2 1 (by omega), hf2 2 (by omega), hf 99 hk]
      rw [insertByKey_skip (by
        intro a ha
        rcases List.mem_append.mp ha with ha | ha
        · rcases List.mem_append.mp ha with ha | ha
          · have := mem_keyFilter ha; omega
          · have := mem_keyFilter ha; omega
        · have := mem_keyFilter ha; omega)]
      rw [insertByKey_front (by
        intro b hb
        have := mem_keyFilter hb
        omega)]

/-- The `"type"` field a serialized item carries determines its sort key. -/
theorem item_to_dict_key {it : Item} {j : Json} (h : Item.to_dict it = some j) :
    itemOrderKey j = ITEM_ORDER_get (Json.str (item_type it.kind)) := by
  rcases it with ⟨k, name, children, ci, ce⟩
  rw [Item.to_dict] at h
  dsimp only at h
  cases h1 : childrenToJson children with
  | none => rw [h1] at h; exact absurd h (by simp)
  | some cjs =>
    rw [h1] at h
    dsimp only at h
    cases h2 : guard_strings cjs with
    | none => rw [h2] at h; exact absurd h (by simp)
    | some gcs =>
      rw [h2] at h
      dsimp only at h
      simp only [Option.some.injEq] at h
      subst h
      cases hct : calculation_type k <;>
        simp [hct, itemOrderKey, pyLookup]

/-- Items never land in the default 99 bucket: their type string is one of
the three `ITEM_ORDER` keys. -/
theorem item_to_dict_key_le {it : Item} {j : Json}
    (h : Item.to_dict it = some j) : itemOrderKey j ≤ 2 := by
  rw [item_to_dict_key h]
  cases hk : it.kind <;> simp [item_type, ITEM_ORDER_get]

/-- Whether every element of a calculation set is an `Item` (rather than a
bare `If`/`IfRow` accepted by the deserializer's registry). -/
def itemsOnly (cs : CalcSet) : Bool :=
  cs.items.all fun x =>
    match x with
    | .item _ => true
    | .ifExpr _ => false
    | .ifRow _ => false

theorem filter_ext {p q : Json → Bool} (l : List Json)
    (h : ∀ x ∈ l, p x = q x) : l.filter p = l.filter q := by
  induction l with
  | nil => simp
  | cons x xs ih =>
    rw [List.filter_cons, List.filter_cons, h x (List.mem_cons_self x xs),
      ih (fun y hy => h y (List.mem_cons_of_mem x hy))]

theorem filter_nil_of {p : Json → Bool} {l : List Json}
    (h : ∀ x ∈ l, p x = false) : l.filter p = [] := by
  induction l with
  | nil => simp
  | cons x xs ih =>
    rw [List.filter_cons, h x (List.mem_cons_self x xs)]
    exact ih (fun y hy => h y (List.mem_cons_of_mem x hy))

/-- **C3.**  For a calculation set of Items whose serialization succeeds,
`to_dict(sort_items=False)` keeps the per-item dicts in insertion order
verbatim, and `to_dict(sort_items=True)` lists all items of type
`"variable"` first, then all of type `"calculation"`, then all of type
`"filter"`, each group preserving the relative input order (the groups are
the order-preserving `filter`s of the unsorted list). -/
theorem to_dict_sort_spec (cs : CalcSet) (l : List Json)
    (hitems : itemsOnly cs = true)
    (hl : csItemsToJson cs.items = some l) :
    cs.to_dict false = some (.obj [("type", Json.str "calculation-set"),
      ("items", Json.arr l)]) ∧
    cs.to_dict true = some (.obj [("type", Json.str "calculation-set"),
      ("items", Json.arr (l.filter (typeIs "variable") ++
        l.filter (typeIs "calculation") ++ l.filter (typeIs "filter")))]) := by
  have hkey : ∀ x ∈ l, itemOrderKey x ≤ 2 := by
    intro x hx
    obtain ⟨y, hy, hyd⟩ := csItemsToJson_mem hl x hx
    rw [itemsOnly, List.all_eq_true] at hitems
    have hyi := hitems y hy
    cases y with
    | item it =>
      rw [CSItem.to_dict] at hyd
      exact item_to_dict_key_le hyd
    | ifExpr i => exact absurd hyi (by simp)
    | ifRow r => exact absurd hyi (by simp)
  have h99 : keyFilter 99 l = [] := by
    apply filter_nil_of
    intro x hx
    have h2 := hkey x hx
    have h3 : itemOrderKey x ≠ 99 := by omega
    simp [h3]
  constructor
  · rw [CalcSet.to_dict.eq_def, hl]
    rfl
  · rw [CalcSet.to_dict.eq_def, hl]
    dsimp only
    rw [pySortItems_buckets, h99]
    rw [filter_ext l (fun x _ => typeIs_variable_key x),
      filter_ext l (fun x _ => typeIs_calculation_key x),
      filter_ext l (fun x _ => typeIs_filter_key x)]
    simp [keyFilter]

/-- A four-item set in scrambled kind order for the sort witness. -/
def csMixed : CalcSet :=
  ⟨[.item ⟨.Filter, "f1", [.text "x"], "", ""⟩,
    .item ⟨.Number, "n1", [.text "1"], "", ""⟩,
    .item ⟨.Variable, "v1", [.text "foo"], "", ""⟩,
    .item ⟨.Variable, "v2", [.text "bar"], "", ""⟩]⟩

/-- Witness for C3 at `csMixed`. -/
theorem to_dict_sort_spec_witness :
    ∃ l, csItemsToJson csMixed.items = some l ∧
      (csMixed.to_dict false = some (.obj [("type", Json.str "calculation-set"),
        ("items", Json.arr l)]) ∧
       csMixed.to_dict true = some (.obj [("type", Json.str "calculation-set"),
        ("items", Json.arr (l.filter (typeIs "variable") ++
          l.filter (typeIs "calculation") ++ l.filter (typeIs "filter")))])) :=
  ⟨_, rfl, to_dict_sort_spec csMixed _ (by decide) rfl⟩

/-! ## The container header (claim C6) -/

/-- Counterexample for C6 as stated: the run of zero bytes that ends `HEADER`
is 20 bytes long, not 16. -/
theorem header_zero_suffix_is_20_not_16 :
    (HEADER.reverse.takeWhile (fun b => b == 0)).length = 20 ∧
      ¬ (HEADER.reverse.takeWhile (fun b => b == 0)).length = 16 := by decide

/-- **C6 (amended).**  The fixed 32-byte magic header is the ASCII bytes of
`%lfcalc-1.0` followed by a newline byte and exactly twenty zero bytes, and
encode places exactly this constant at the start of the output, before the
compressed payload. -/
theorem header_layout (cs : CalcSet) (s : Bool) (f : LfcalcFile)
    (h : cs.to_lfcalc s = some f) :
    f.header = HEADER ∧
      HEADER = ("%lfcalc-1.0\n".data.map Char.toNat) ++ List.replicate 20 0 ∧
      HEADER.length = 32 := by
  refine ⟨?_, by decide, by decide⟩
  rw [CalcSet.to_lfcalc] at h
  cases hp : cs.to_dict s with
  | none => rw [hp] at h; exact absurd h (by simp)
  | some payload =>
    rw [hp] at h
    simp only [Option.some.injEq] at h
    subst h
    rfl

/-- Witness for C6 at `csWitness`. -/
theorem header_layout_witness :
    ∃ f, csWitness.to_lfcalc true = some f ∧
      (f.header = HEADER ∧
        HEADER = ("%lfcalc-1.0\n".data.map Char.toNat) ++ List.replicate 20 0 ∧
        HEADER.length = 32) :=
  ⟨_, rfl, header_layout csWitness true _ rfl⟩

/-! ## Malformed-input rejection (claim C4) -/

/-- An item dict of type `"if_row"`: not an item type, yet accepted. -/
def ifRowItemInner : Json :=
  .obj [("type", .str "if_row"),
    ("test", .obj [("children", .arr [])]),
    ("result", .obj [("children", .arr [.str "x"])])]

/-- A calculation-set dict whose single item is `ifRowItemInner`. -/
def ifRowItemDict : Json :=
  .obj [("type", .str "calculation-set"), ("items", .arr [ifRowItemInner])]

/-- Counterexample for C4 as stated: `CalcSet.from_dict` silently accepts an
item dict whose `"type"` is `"if_row"`, which is not one of the item types
(`"variable"`, `"calculation"`, `"filter"`) — the `classes` registry also
holds the expression tags `"if"` and `"if_row"`. -/
theorem from_dict_accepts_if_row_item :
    (∃ cs, CalcSet.from_dict ifRowItemDict = .ok cs) ∧
    getKey ifRowItemInner "type" = .ok (.str "if_row") ∧
    ("if_row" ≠ item_type .Variable ∧ "if_row" ≠ item_type .Number ∧
      "if_row" ≠ item_type .Category ∧ "if_row" ≠ item_type .Filter) := by
  refine ⟨⟨⟨[.ifRow (IfRow.mk [] [Child.text "x"])]⟩, ?_⟩, rfl, by decide⟩
  simp [ifRowItemDict, ifRowItemInner, CalcSet.from_dict.eq_def, getKey,
    pyLookup, itemsIter, csItemsFromJson, csItemFromJson.eq_def,
    IfRow.from_dict.eq_def, dispatchList, dispatch_expression.eq_def,
    ensureListJ, ensureStrListJ, dictGet, Json.isStr, List.getLast]

/-- If one member of the item list fails to deserialize, the whole list
does. -/
theorem csItemsFromJson_error_of_mem {l : List Json} {x : Json}
    (hx : x ∈ l) (he : ∃ e, csItemFromJson x = .error e) :
    ∃ e, csItemsFromJson l = .error e := by
  induction l with
  | nil => simp at hx
  | cons y ys ih =>
    cases hy : csItemFromJson y with
    | error e => exact ⟨e, by rw [csItemsFromJson, hy]⟩
    | ok it =>
      rcases List.mem_cons.mp hx with hx | hx
      · subst hx
        obtain ⟨e, he⟩ := he
        rw [hy] at he
        cases he
      · obtain ⟨e2, h2⟩ := ih hx
        refine ⟨e2, ?_⟩
        rw [csItemsFromJson, hy, h2]

theorem csItemFromJson_unknown_type {item t : Json}
    (ht : getKey item "type" = .ok t)
    (h1 : t ≠ .str "variable") (h2 : t ≠ .str "filter") (h3 : t ≠ .str "if")
    (h4 : t ≠ .str "if_row") (h5 : t ≠ .str "calculation") :
    ∃ e, csItemFromJson item = .error e := by
  rw [csItemFromJson.eq_def, ht]
  dsimp only
  split <;> simp_all

theorem csItemFromJson_unknown_calc {item ct : Json}
    (ht : getKey item "type" = .ok (.str "calculation"))
    (hct : dictGet item "calculation_type" Json.null = .ok ct)
    (h1 : ct ≠ .str "number") (h2 : ct ≠ .str "string") :
    ∃ e, csItemFromJson item = .error e := by
  rw [csItemFromJson.eq_def, ht]
  dsimp only
  rw [hct]
  dsimp only
  split <;> simp_all

/-- **C4 (amended).**  `CalcSet.from_dict` and the expression deserializers
fail fast, constructing nothing, when: the top-level `"type"` is not
`"calculation-set"`; an item's `"type"` is none of the tags known to the
deserializer (`"variable"`, `"filter"`, `"if"`, `"if_row"`, `"calculation"` —
the registry also admits the two expression tags, which the claim's item-type
list omits); a `"calculation"` item's `calculation_type` is neither
`"number"` nor `"string"`; a nested expression dict's `"type"` is not `"if"`;
or an `If`/`IfRow` dict's `"type"` tag mismatches. -/
theorem from_dict_rejects_malformed :
    (∀ d t, getKey d "type" = .ok t → t ≠ .str "calculation-set" →
      ∃ e, CalcSet.from_dict d = .error e) ∧
    (∀ d itemsJ l item t, getKey d "type" = .ok (.str "calculation-set") →
      getKey d "items" = .ok itemsJ → itemsIter itemsJ = .ok l → item ∈ l →
      getKey item "type" = .ok t →
      t ≠ .str "variable" → t ≠ .str "filter" → t ≠ .str "if" →
      t ≠ .str "if_row" → t ≠ .str "calculation" →
      ∃ e, CalcSet.from_dict d = .error e) ∧
    (∀ d itemsJ l item ct, getKey d "type" = .ok (.str "calculation-set") →
      getKey d "items" = .ok itemsJ → itemsIter itemsJ = .ok l → item ∈ l →
      getKey item "type" = .ok (.str "calculation") →
      dictGet item "calculation_type" Json.null = .ok ct →
      ct ≠ .str "number" → ct ≠ .str "string" →
      ∃ e, CalcSet.from_dict d = .error e) ∧
    (∀ kvs t, pyLookup kvs "type" = some t → t ≠ .str "if" →
      ∃ e, dispatch_expression (.obj kvs) = .error e) ∧
    (∀ d t, getKey d "type" = .ok t → t ≠ .str "if" →
      ∃ e, If.from_dict d = .error e) ∧
    (∀ d t, getKey d "type" = .ok t → t ≠ .str "if_row" →
      ∃ e, IfRow.from_dict d = .error e) := by
  refine ⟨?_, ?_, ?_, ?_, ?_, ?_⟩
  · intro d t ht hne
    rw [CalcSet.from_dict.eq_def, ht]
    dsimp only
    split <;> simp_all
  · intro d itemsJ l item t htop hitems hiter hmem ht h1 h2 h3 h4 h5
    obtain ⟨e, he⟩ := csItemsFromJson_error_of_mem hmem
      (csItemFromJson_unknown_type ht h1 h2 h3 h4 h5)
    refine ⟨e, ?_⟩
    rw [CalcSet.from_dict.eq_def]
    simp [htop, hitems, hiter, he]
  · intro d itemsJ l item ct htop hitems hiter hmem ht hct h1 h2
    obtain ⟨e, he⟩ := csItemsFromJson_error_of_mem hmem
      (csItemFromJson_unknown_calc ht hct h1 h2)
    refine ⟨e, ?_⟩
    rw [CalcSet.from_dict.eq_def]
    simp [htop, hitems, hiter, he]
  · intro kvs t ht hne
    rw [dispatch_expression.eq_def]
    simp only [ht]
    exact ⟨_, rfl⟩
  · intro d t ht hne
    rw [If.from_dict.eq_def, ht]
    dsimp only
    split <;> simp_all
  · intro d t ht hne
    rw [IfRow.from_dict.eq_def, ht]
    dsimp only
    split <;> simp_all

/-! ## Empty expressions cannot be serialized (claim C10) -/

/-- One unserializable element poisons the whole item list. -/
theorem csItemsToJson_none_of_mem {items : List CSItem} {x : CSItem}
    (hx : x ∈ items) (hn : CSItem.to_dict x = none) :
    csItemsToJson items = none := by
  induction items with
  | nil => simp at hx
  | cons y ys ih =>
    cases hy : CSItem.to_dict y with
    | none => rw [csItemsToJson, hy]
    | some j =>
      rcases List.mem_cons.mp hx with hx | hx
      · subst hx
        rw [hy] at hn
        cases hn
      · rw [csItemsToJson, hy, ih hx]

/-- **C10.**  An `Item` with an empty `children` list cannot be serialized:
`utils.to_dict(children, guard_strings=True)` indexes `out[0]` on the empty
mapped list and raises `IndexError`, so `Item.to_dict` fails, and so does
`CalcSet.to_dict` for any CalcSet containing such an item (with either value
of `sort_items`). -/
theorem item_to_dict_empty_children (k : ItemKind) (name ci ce : String)
    (cs : CalcSet) (b : Bool)
    (hmem : CSItem.item ⟨k, name, [], ci, ce⟩ ∈ cs.items) :
    Item.to_dict ⟨k, name, [], ci, ce⟩ = none ∧ cs.to_dict b = none := by
  have hit : Item.to_dict ⟨k, name, [], ci, ce⟩ = none := by
    rw [Item.to_dict]
    dsimp only
    rw [childrenToJson]
    dsimp only
    rw [guard_strings]
  refine ⟨hit, ?_⟩
  rw [CalcSet.to_dict.eq_def,
    csItemsToJson_none_of_mem hmem (by rw [CSItem.to_dict]; exact hit)]

/-- Witness for C10: a one-item set whose Number has no expression. -/
theorem item_to_dict_empty_children_witness :
    Item.to_dict ⟨.Number, "bad", [], "", ""⟩ = none ∧
      CalcSet.to_dict ⟨[.item ⟨.Number, "bad", [], "", ""⟩]⟩ true = none :=
  item_to_dict_empty_children .Number "bad" "" ""
    ⟨[.item ⟨.Number, "bad", [], "", ""⟩]⟩ true (List.mem_cons_self _ _)

/-! ## The decompiler IR (`pollywog/conversion/decomp.py`)

The IR analyses call `re.findall` on three patterns.  They are embedded as
character scanners with the exact semantics of the Python regex engine on
each pattern; the scan position only moves forward, so the outer scans take a
fuel argument (the input length always suffices) to stay structurally
recursive and hence computable by the kernel. -/

/-- Python's `\w` on the ASCII inputs used here. -/
def isWordChar (c : Char) : Bool := c.isAlphanum || c = '_'

/-- `re.findall(r"\[([^\]]+)\]", s)`: the scan is a left-to-right state
machine — outside a bracket, `[` opens one; inside, the first `]` closes it
and emits the collected (non-empty) content, in which `[` is an ordinary
character.  This is exactly the regex's behaviour: the character class
`[^\]]+` runs to the first `]`, and a failed or unterminated bracket emits
nothing. -/
def bracketScanGo : Option (List Char) → List Char → List String
  | _, [] => []
  | none, c :: t => if c = '[' then bracketScanGo (some []) t else bracketScanGo none t
  | some acc, c :: t =>
    if c = ']' then
      match acc with
      | [] => bracketScanGo none t
      | _ => String.mk acc :: bracketScanGo none t
    else bracketScanGo (some (acc ++ [c])) t

/-- The bracket names of one text fragment. -/
def bracketScan (s : String) : List String := bracketScanGo none s.data

/-- The characters before the next closing quote `q` (failing on a newline,
which `.` does not match, or at the end), and the rest after it. -/
def untilQuote (q : Char) : List Char → Option (List Char × List Char)
  | [] => none
  | c :: t =>
    if c = q then some ([], t)
    else if c = '\n' then none
    else
      match untilQuote q t with
      | some (acc, r) => some (c :: acc, r)
      | none => none

/-- `re.findall('"(.*?)"|\x27(.*?)\x27', s)` reduced to the set the caller
keeps: at each position a quote character opens a literal closed by the next
quote of the same kind on the same line; on success the scan resumes after
the closing quote, on failure at the next character.  `get_constants` adds
`sc[0] if sc[0] else sc[1]`, which is the matched content in every case
(the empty-content match contributes the empty string). -/
def strLitScanGo : Nat → List Char → List String
  | 0, _ => []
  | _ + 1, [] => []
  | fuel + 1, c :: t =>
    if c = '"' ∨ c = '\'' then
      match untilQuote c t with
      | some (acc, r) => String.mk acc :: strLitScanGo fuel r
      | none => strLitScanGo fuel t
    else strLitScanGo fuel t

/-- The quoted string literal contents of one text fragment. -/
def strLitScan (s : String) : List String := strLitScanGo s.data.length s.data

/-- The maximal digit prefix and the rest. -/
def spanDigits : List Char → (List Char × List Char)
  | [] => ([], [])
  | c :: t =>
    if c.isDigit then
      let p := spanDigits t
      (c :: p.1, p.2)
    else ([], c :: t)

/-- `re.findall(r"\b\d+(\.\d+)?\b", s)` with Python's group-capture result:
each match of the whole pattern contributes the pair (full numeric token,
captured group).  `findall` returns the GROUP, so an integer literal
contributes the empty string and `3.14` contributes `.14`.  The scan: a
digit at a word boundary opens a match of maximal digits `ds`; a following
`.`+digits-run `fs` is taken if a word boundary follows it (otherwise the
optional group backtracks away, and the boundary after `ds` holds because
`.` is a non-word character); with no fraction, the match succeeds when no
word character follows `ds`, else the engine abandons this start and moves
one character on. -/
def numScanGo : Nat → Bool → List Char → List (String × String)
  | 0, _, _ => []
  | _ + 1, _, [] => []
  | fuel + 1, prevWord, c :: rest =>
    if c.isDigit && !prevWord then
      let p := spanDigits (c :: rest)
      match p.2 with
      | '.' :: d :: _ =>
        if d.isDigit then
          let q := spanDigits (p.2.tail)
          match q.2 with
          | [] => [(String.mk (p.1 ++ '.' :: q.1), String.mk ('.' :: q.1))]
          | c2 :: _ =>
            if isWordChar c2 then
              (String.mk p.1, "") :: numScanGo fuel true p.2
            else
              (String.mk (p.1 ++ '.' :: q.1), String.mk ('.' :: q.1)) ::
                numScanGo fuel true q.2
        else
          (String.mk p.1, "") :: numScanGo fuel true p.2
      | [] => [(String.mk p.1, "")]
      | c1 :: _ =>
        if isWordChar c1 then
          numScanGo fuel (isWordChar c) rest
        else
          (String.mk p.1, "") :: numScanGo fuel true p.2
    else
      numScanGo fuel (isWordChar c) rest

/-- The (token, group) pairs of the numeric-literal scan of one fragment. -/
def numScan (s : String) : List (String × String) :=
  numScanGo s.data.length false s.data

/-- Python `needle in hay` building block: list prefix test. -/
def isPrefixL : List Char → List Char → Bool
  | [], _ => true
  | _ :: _, [] => false
  | a :: as, b :: bs => a == b && isPrefixL as bs

/-- Python `needle in hay` on character lists. -/
def containsL (n : List Char) : List Char → Bool
  | [] => n.isEmpty
  | c :: rest => isPrefixL n (c :: rest) || containsL n rest

/-- Python `needle in hay` (substring containment). -/
def pyContains (needle hay : String) : Bool := containsL needle.data hay.data

/-- The loop of `str.replace` for a non-empty pattern: replace each
leftmost non-overlapping occurrence.  Every step consumes at least one
character, so the input length is enough fuel. -/
def replaceGo : Nat → List Char → List Char → List Char → List Char
  | 0, _, _, hay => hay
  | _ + 1, _, _, [] => []
  | fuel + 1, old, new, c :: t =>
    if isPrefixL old (c :: t) then
      new ++ replaceGo fuel old new ((c :: t).drop old.length)
    else c :: replaceGo fuel old new t

/-- Python `s.replace(old, new)` (all non-overlapping occurrences, left to
right; the empty pattern inserts `new` around every character). -/
def pyReplace (s old new : String) : String :=
  match old.data with
  | [] => String.mk (new.data ++ s.data.foldr (fun c acc => c :: (new.data ++ acc)) [])
  | _ => String.mk (replaceGo s.data.length old.data new.data s.data)

/-- The positional placeholder `f"{{v{i}}}"` of `to_template`. -/
def placeholder (i : Nat) : String := "\x7bv" ++ toString i ++ "\x7d"

mutual

/-- One element of `IRExpression.children`: a text fragment or a nested
`IRIf` (the `List[Union[str, IRIf]]` annotation in `decomp.py`). -/
inductive IRChild where
  | text : String → IRChild
  | cond : IRIf → IRChild

/-- `decomp.IRIf`: rows and an `otherwise` expression. -/
inductive IRIf where
  | mk : List IRIfRow → IRExpression → IRIf

/-- `decomp.IRIfRow`: a condition and a result expression. -/
inductive IRIfRow where
  | mk : IRExpression → IRExpression → IRIfRow

/-- `decomp.IRExpression`. -/
inductive IRExpression where
  | mk : List IRChild → IRExpression

end

def IRExpression.children : IRExpression → List IRChild
  | .mk cs => cs

def IRIf.rows : IRIf → List IRIfRow
  | .mk r _ => r

def IRIf.otherwise : IRIf → IRExpression
  | .mk _ o => o

def IRIfRow.condition : IRIfRow → IRExpression
  | .mk c _ => c

def IRIfRow.result : IRIfRow → IRExpression
  | .mk _ r => r

mutual

def irChildBeq : IRChild → IRChild → Bool
  | .text a, .text b => a == b
  | .cond a, .cond b => irIfBeq a b
  | _, _ => false
termination_by structural a _ => a

def irIfBeq : IRIf → IRIf → Bool
  | .mk ra oa, .mk rb ob => irRowListBeq ra rb && irExprBeq oa ob
termination_by structural a _ => a

def irRowBeq : IRIfRow → IRIfRow → Bool
  | .mk ca va, .mk cb vb => irExprBeq ca cb && irExprBeq va vb
termination_by structural a _ => a

def irExprBeq : IRExpression → IRExpression → Bool
  | .mk a, .mk b => irChildListBeq a b
termination_by structural a _ => a

def irRowListBeq : List IRIfRow → List IRIfRow → Bool
  | [], [] => true
  | a :: as, b :: bs => irRowBeq a b && irRowListBeq as bs
  | _, _ => false
termination_by structural a _ => a

def irChildListBeq : List IRChild → List IRChild → Bool
  | [], [] => true
  | a :: as, b :: bs => irChildBeq a b && irChildListBeq as bs
  | _, _ => false
termination_by structural a _ => a

end

mutual

theorem irChildBeq_iff : ∀ (a b : IRChild), irChildBeq a b = true ↔ a = b
  | .text _, .text _ => by simp [irChildBeq]
  | .text _, .cond _ => by simp [irChildBeq]
  | .cond _, .text _ => by simp [irChildBeq]
  | .cond a, .cond b => by
    rw [irChildBeq, irIfBeq_iff a b]
    simp

theorem irIfBeq_iff : ∀ (a b : IRIf), irIfBeq a b = true ↔ a = b
  | .mk ra oa, .mk rb ob => by
    rw [irIfBeq, Bool.and_eq_true, irRowListBeq_iff ra rb, irExprBeq_iff oa ob]
    simp

theorem irRowBeq_iff : ∀ (a b : IRIfRow), irRowBeq a b = true ↔ a = b
  | .mk ca va, .mk cb vb => by
    rw [irRowBeq, Bool.and_eq_true, irExprBeq_iff ca cb, irExprBeq_iff va vb]
    simp

theorem irExprBeq_iff : ∀ (a b : IRExpression), irExprBeq a b = true ↔ a = b
  | .mk a, .mk b => by
    rw [irExprBeq, irChildListBeq_iff a b]
    simp

theorem irRowListBeq_iff : ∀ (a b : List IRIfRow), irRowListBeq a b = true ↔ a = b
  | [], [] => by simp [irRowListBeq]
  | [], _ :: _ => by simp [irRowListBeq]
  | _ :: _, [] => by simp [irRowListBeq]
  | a :: as, b :: bs => by
    rw [irRowListBeq, Bool.and_eq_true, irRowBeq_iff a b, irRowListBeq_iff as bs]
    simp

theorem irChildListBeq_iff : ∀ (a b : List IRChild), irChildListBeq a b = true ↔ a = b
  | [], [] => by simp [irChildListBeq]
  | [], _ :: _ => by simp [irChildListBeq]
  | _ :: _, [] => by simp [irChildListBeq]
  | a :: as, b :: bs => by
    rw [irChildListBeq, Bool.and_eq_true, irChildBeq_iff a b,
      irChildListBeq_iff as bs]
    simp

end

instance : DecidableEq IRChild := fun a b =>
  decidable_of_iff (irChildBeq a b = true) (irChildBeq_iff a b)

instance : DecidableEq IRIf := fun a b =>
  decidable_of_iff (irIfBeq a b = true) (irIfBeq_iff a b)

instance : DecidableEq IRIfRow := fun a b =>
  decidable_of_iff (irRowBeq a b = true) (irRowBeq_iff a b)

instance : DecidableEq IRExpression := fun a b =>
  decidable_of_iff (irExprBeq a b = true) (irExprBeq_iff a b)

/-! ### The IR analyses (`get_dependencies`, `get_constants`, `to_template`,
`partial_apply`) -/

mutual

/-- `IRExpression.get_dependencies`: union over children of the bracket
names found by `re.findall(r"\[([^\]]+)\]", child)`. -/
def IRExpression.get_dependencies : IRExpression → Finset String
  | .mk children => irChildrenDeps children

def irChildrenDeps : List IRChild → Finset String
  | [] => ∅
  | c :: cs => irChildDeps c ∪ irChildrenDeps cs

def irChildDeps : IRChild → Finset String
  | .text s => (bracketScan s).toFinset
  | .cond i => IRIf.get_dependencies i

/-- `IRIf.get_dependencies`: rows (condition then result) then otherwise. -/
def IRIf.get_dependencies : IRIf → Finset String
  | .mk rows otherwise => irRowsDeps rows ∪ IRExpression.get_dependencies otherwise

def irRowsDeps : List IRIfRow → Finset String
  | [] => ∅
  | .mk c r :: rs =>
    (IRExpression.get_dependencies c ∪ IRExpression.get_dependencies r) ∪
      irRowsDeps rs

end

mutual

/-- `IRExpression.get_constants`: for each text fragment, the contents of the
quoted string literals plus whatever `re.findall(r"\b\d+(\.\d+)?\b", child)`
returns — which, the pattern holding one capture group, is the GROUP of each
match (the fractional part, or the empty string), not the numeric token. -/
def IRExpression.get_constants : IRExpression → Finset String
  | .mk children => irChildrenConsts children

def irChildrenConsts : List IRChild → Finset String
  | [] => ∅
  | c :: cs => irChildConsts c ∪ irChildrenConsts cs

def irChildConsts : IRChild → Finset String
  | .text s => (strLitScan s).toFinset ∪ ((numScan s).map Prod.snd).toFinset
  | .cond i => IRIf.get_constants i

def IRIf.get_constants : IRIf → Finset String
  | .mk rows otherwise => irRowsConsts rows ∪ IRExpression.get_constants otherwise

def irRowsConsts : List IRIfRow → Finset String
  | [] => ∅
  | .mk c r :: rs =>
    (IRExpression.get_constants c ∪ IRExpression.get_constants r) ∪
      irRowsConsts rs

end

/-- `IRExpression.get_parameters`. -/
def IRExpression.get_parameters (e : IRExpression) : Finset String :=
  e.get_dependencies ∪ e.get_constants

/-- The inner loop of `to_template` on one text fragment: for each parameter
in list order, when its text occurs in the fragment, replace every occurrence
by the positional placeholder of its index. -/
def toTemplateFold (parameters : List String) (s0 : String) : String :=
  parameters.enum.foldl
    (fun child p =>
      if pyContains p.2 child then pyReplace child p.2 (placeholder p.1)
      else child) s0

/-- The inner loop of `partial_apply` on one text fragment, exactly as the
source writes it: the guard tests whether the PARAMETER text occurs in the
fragment, and only then replaces the placeholder `{vi}` by `str(values[i])`
(`values[i]` raises `IndexError` out of range; the claims only use value
lists as long as the parameter list, modelled by a default). -/
def partialApplyFold (parameters values : List String) (s0 : String) : String :=
  parameters.enum.foldl
    (fun child p =>
      if pyContains p.2 child then
        pyReplace child (placeholder p.1) (values.getD p.1 "")
      else child) s0

mutual

/-- `IRExpression.to_template`. -/
def IRExpression.to_template : IRExpression → List String → IRExpression
  | .mk children, ps => .mk (irChildrenTemplate children ps)
termination_by structural e _ => e

def irChildrenTemplate : List IRChild → List String → List IRChild
  | [], _ => []
  | .text s :: cs, ps => .text (toTemplateFold ps s) :: irChildrenTemplate cs ps
  | .cond i :: cs, ps => .cond (IRIf.to_template i ps) :: irChildrenTemplate cs ps
termination_by structural l _ => l

/-- `IRIf.to_template`. -/
def IRIf.to_template : IRIf → List String → IRIf
  | .mk rows otherwise, ps =>
    .mk (irRowsTemplate rows ps) (IRExpression.to_template otherwise ps)
termination_by structural i _ => i

def irRowsTemplate : List IRIfRow → List String → List IRIfRow
  | [], _ => []
  | .mk c r :: rs, ps =>
    .mk (IRExpression.to_template c ps) (IRExpression.to_template r ps) ::
      irRowsTemplate rs ps
termination_by structural l _ => l

end

mutual

/-- `IRExpression.partial_apply`.  On an `IRIf` child the source calls
`child.partial_apply`, a method `IRIf` does not define, so Python raises
`AttributeError`: modelled as `none`. -/
def IRExpression.partial_apply :
    IRExpression → List String → List String → Option IRExpression
  | .mk children, ps, vs =>
    match irChildrenPartialApply children ps vs with
    | some cs => some (.mk cs)
    | none => none
termination_by structural e _ _ => e

def irChildrenPartialApply :
    List IRChild → List String → List String → Option (List IRChild)
  | [], _, _ => some []
  | .text s :: cs, ps, vs =>
    match irChildrenPartialApply cs ps vs with
    | some rest => some (.text (partialApplyFold ps vs s) :: rest)
    | none => none
  | .cond _ :: _, _, _ => none
termination_by structural l _ _ => l

end

/-! ### Dependency extraction is bracket-name collection (claim C9) -/

mutual

/-- The text fragments beneath an expression node, in order. -/
def IRExpression.fragments : IRExpression → List String
  | .mk children => irChildrenFrags children

def irChildrenFrags : List IRChild → List String
  | [] => []
  | c :: cs => irChildFrags c ++ irChildrenFrags cs

def irChildFrags : IRChild → List String
  | .text s => [s]
  | .cond i => IRIf.fragments i

/-- The text fragments beneath a conditional node: conditions and results of
the rows in order, then the otherwise branch. -/
def IRIf.fragments : IRIf → List String
  | .mk rows otherwise => irRowsFrags rows ++ IRExpression.fragments otherwise

def irRowsFrags : List IRIfRow → List String
  | [] => []
  | .mk c r :: rs =>
    (IRExpression.fragments c ++ IRExpression.fragments r) ++ irRowsFrags rs

end

/-- The set of `[Name]` bracket names occurring in a list of fragments: the
specification-side reading of dependency extraction. -/
def fragmentDeps : List String → Finset String
  | [] => ∅
  | s :: rest => (bracketScan s).toFinset ∪ fragmentDeps rest

theorem fragmentDeps_append (a b : List String) :
    fragmentDeps (a ++ b) = fragmentDeps a ∪ fragmentDeps b := by
  induction a with
  | nil => simp [fragmentDeps]
  | cons s rest ih =>
    rw [List.cons_append, fragmentDeps, fragmentDeps, ih, Finset.union_assoc]

mutual

theorem irExprDeps_spec : ∀ (e : IRExpression),
    IRExpression.get_dependencies e = fragmentDeps (IRExpression.fragments e)
  | .mk children => by
    rw [IRExpression.get_dependencies, IRExpression.fragments,
      irChildrenDeps_spec children]

theorem irChildrenDeps_spec : ∀ (cs : List IRChild),
    irChildrenDeps cs = fragmentDeps (irChildrenFrags cs)
  | [] => by rw [irChildrenDeps, irChildrenFrags, fragmentDeps]
  | c :: cs => by
    rw [irChildrenDeps, irChildrenFrags, fragmentDeps_append,
      irChildDeps_spec c, irChildrenDeps_spec cs]

theorem irChildDeps_spec : ∀ (c : IRChild),
    irChildDeps c = fragmentDeps (irChildFrags c)
  | .text s => by
    rw [irChildDeps, irChildFrags, fragmentDeps, fragmentDeps]
    simp
  | .cond i => by rw [irChildDeps, irChildFrags, irIfDeps_spec i]

theorem irIfDeps_spec : ∀ (i : IRIf),
    IRIf.get_dependencies i = fragmentDeps (IRIf.fragments i)
  | .mk rows oth => by
    rw [IRIf.get_dependencies, IRIf.fragments, fragmentDeps_append,
      irRowsDeps_spec rows, irExprDeps_spec oth]

theorem irRowsDeps_spec : ∀ (rs : List IRIfRow),
    irRowsDeps rs = fragmentDeps (irRowsFrags rs)
  | [] => by rw [irRowsDeps, irRowsFrags, fragmentDeps]
  | .mk c r :: rs => by
    rw [irRowsDeps, irRowsFrags, fragmentDeps_append, fragmentDeps_append,
      irExprDeps_spec c, irExprDeps_spec r, irRowsDeps_spec rs]

end

/-- **C9.**  For every IR node (expression or conditional, however deeply
nested), `get_dependencies` returns exactly the set of names that occur in
`[Name]` bracket syntax in some text fragment beneath the node — conditions,
results, otherwise branches and nested conditionals included; in particular
on `[Au] * 2 + [Ag]` it returns exactly {Au, Ag}. -/
theorem get_dependencies_bracket_names :
    (∀ e : IRExpression, IRExpression.get_dependencies e =
      fragmentDeps (IRExpression.fragments e)) ∧
    (∀ i : IRIf, IRIf.get_dependencies i = fragmentDeps (IRIf.fragments i)) ∧
    IRExpression.get_dependencies (.mk [.text "[Au] * 2 + [Ag]"]) =
      {"Au", "Ag"} :=
  ⟨irExprDeps_spec, irIfDeps_spec, by decide⟩

/-! ### `get_constants` returns the capture group, not the token (claim C7)

`re.findall` with one capture group in the pattern returns the group of each
match, so `r"\b\d+(\.\d+)?\b"` yields the optional fractional part (or the
empty string), never the full numeric literal — contradicting the function's
own comment ("find all string constants … or numeric literals"). -/

/-- **C7 (code evaluated at the failing inputs).**  On `[Au] * 2 + [Ag]`
`get_constants` returns {""} (not {"2"}), and on `x > 3.14` it returns
{".14"} (not {"3.14"}). -/
theorem get_constants_returns_groups :
    IRExpression.get_constants (.mk [.text "[Au] * 2 + [Ag]"]) = {""} ∧
    IRExpression.get_constants (.mk [.text "x > 3.14"]) = {".14"} ∧
    ¬ IRExpression.get_constants (.mk [.text "[Au] * 2 + [Ag]"]) = {"2"} ∧
    ¬ IRExpression.get_constants (.mk [.text "x > 3.14"]) = {"3.14"} := by
  decide

/-! ### `partial_apply` does not invert `to_template` (claim C8)

`partial_apply`'s guard is `if par in child` — but after `to_template` the
parameter text has been replaced by its placeholder, so the guard is false
and the placeholder substitution never runs. -/

/-- The claim's example expression. -/
def tmplExample : IRExpression := .mk [.text "[a] + [b]"]

/-- **C8 (code evaluated at the failing input).**  With parameters
`["a", "b"]` (neither a substring of the other), templating the example
yields `[{v0}] + [{v1}]`, and `partial_apply` of that template with the very
same parameter list as values returns the template unchanged — the
placeholders are not replaced, so the original expression is not
recovered. -/
theorem partial_apply_leaves_placeholders :
    pyContains "a" "b" = false ∧ pyContains "b" "a" = false ∧
    IRExpression.to_template tmplExample ["a", "b"] =
      .mk [.text "[{v0}] + [{v1}]"] ∧
    IRExpression.partial_apply (IRExpression.to_template tmplExample ["a", "b"])
      ["a", "b"] ["a", "b"] = some (.mk [.text "[{v0}] + [{v1}]"]) ∧
    ¬ IRExpression.partial_apply (IRExpression.to_template tmplExample ["a", "b"])
      ["a", "b"] ["a", "b"] = some tmplExample := by
  decide

/-! ### The decompiler pipeline (claims C2 and C5)

`decomp.py` declares the IR and its conversion layer (`from_expression`,
`from_if`) but the grouping engine and the public entry point are missing
from the source tree: `tests/test_decomp.py` imports `decompile_calcset` and
`CalcSetDecompiler` from `pollywog.conversion.decomp`, and the spec describes
them (§4.4–4.5, §6), yet `decomp.py` never constructs an `IRLoop`, defines no
`decompile_calcset`, and leaves `TODO` markers in its plan comment.
The conversion layer below is translated from the source; the grouping
engine, emitter and entry point are modelled from the spec. -/

mutual

/-- `IRExpression.from_expression`: an `If` child becomes `IRIf.from_if`,
a string passes through.  Any other child would make the resulting IR leave
its declared `List[Union[str, IRIf]]` type and crash every IR analysis, so
a `raw` child has no IR counterpart: modelled as `none`. -/
def childrenFromExpression : List Child → Option (List IRChild)
  | [] => some []
  | .text s :: cs =>
    match childrenFromExpression cs with
    | some rest => some (.text s :: rest)
    | none => none
  | .cond i :: cs =>
    match irIfFromIf i, childrenFromExpression cs with
    | some iri, some rest => some (.cond iri :: rest)
    | _, _ => none
  | .raw _ :: _ => none
termination_by structural cs => cs

/-- `IRIf.from_if`: convert each row's condition and value, then the
otherwise branch.  (The source guards `if if_obj.otherwise`, but the falsy
case — the empty list — converts to `IRExpression([])` anyway, so the guard
is the identity.) -/
def irIfFromIf : If → Option IRIf
  | .mk rows otherwise =>
    match irRowsFromRows rows, childrenFromExpression otherwise with
    | some irs, some ocs => some (.mk irs (.mk ocs))
    | _, _ => none
termination_by structural i => i

def irRowsFromRows : List IfRow → Option (List IRIfRow)
  | [] => some []
  | .mk c v :: rs =>
    match childrenFromExpression c, childrenFromExpression v,
        irRowsFromRows rs with
    | some ic, some iv, some rest => some (.mk (.mk ic) (.mk iv) :: rest)
    | _, _, _ => none
termination_by structural l => l

end

/-- `IRExpression.from_expression` (package level). -/
def IRExpression.from_expression (expression : List Child) :
    Option IRExpression :=
  match childrenFromExpression expression with
  | some cs => some (.mk cs)
  | none => none

mutual

/-- Modelled from the spec (§4.5, §6): the emitter renders an IR child list
as the constructor text `["…", If(rows=[IfRow(…)…], otherwise=[…]), …]`;
evaluating that text in the host language rebuilds the concrete children.
This is the evaluation of the rendered text, one child at a time. -/
def irToChildren : List IRChild → List Child
  | [] => []
  | .text s :: cs => .text s :: irToChildren cs
  | .cond i :: cs => .cond (irIfToIf i) :: irToChildren cs
termination_by structural l => l

def irIfToIf : IRIf → If
  | .mk rows o => .mk (irRowsToRows rows) (irExprToChildren o)
termination_by structural i => i

def irExprToChildren : IRExpression → List Child
  | .mk cs => irToChildren cs
termination_by structural e => e

def irRowsToRows : List IRIfRow → List IfRow
  | [] => []
  | .mk c v :: rs =>
    .mk (irExprToChildren c) (irExprToChildren v) :: irRowsToRows rs
termination_by structural l => l

end

mutual

/-- Evaluating the emitted constructor text undoes the conversion layer:
whenever `from_expression` succeeds, rebuilding the children from the IR
gives back the original children. -/
theorem irToChildren_from : ∀ (cs : List Child) (ir : List IRChild),
    childrenFromExpression cs = some ir → irToChildren ir = cs
  | [], ir => by
    intro h
    rw [childrenFromExpression] at h
    injection h with h
    subst h
    rfl
  | .text s :: cs, ir => by
    intro h
    rw [childrenFromExpression] at h
    cases h2 : childrenFromExpression cs with
    | none => rw [h2] at h; exact Option.noConfusion h
    | some rest =>
      rw [h2] at h
      injection h with h
      subst h
      rw [irToChildren, irToChildren_from cs rest h2]
  | .cond i :: cs, ir => by
    intro h
    rw [childrenFromExpression] at h
    cases h1 : irIfFromIf i with
    | none => rw [h1] at h; exact Option.noConfusion h
    | some iri =>
      cases h2 : childrenFromExpression cs with
      | none => rw [h1, h2] at h; exact Option.noConfusion h
      | some rest =>
        rw [h1, h2] at h
        injection h with h
        subst h
        rw [irToChildren, irToChildren_from cs rest h2, irIfToIf_from i iri h1]
  | .raw j :: cs, ir => by
    intro h
    rw [childrenFromExpression] at h
    exact Option.noConfusion h

theorem irIfToIf_from : ∀ (i : If) (ir : IRIf),
    irIfFromIf i = some ir → irIfToIf ir = i
  | .mk rows otherwise, ir => by
    intro h
    rw [irIfFromIf] at h
    cases h1 : irRowsFromRows rows with
    | none => rw [h1] at h; exact Option.noConfusion h
    | some irs =>
      cases h2 : childrenFromExpression otherwise with
      | none => rw [h1, h2] at h; exact Option.noConfusion h
      | some ocs =>
        rw [h1, h2] at h
        injection h with h
        subst h
        rw [irIfToIf, irExprToChildren, irToChildren_from otherwise ocs h2,
          irRowsToRows_from rows irs h1]

theorem irRowsToRows_from : ∀ (rs : List IfRow) (irs : List IRIfRow),
    irRowsFromRows rs = some irs → irRowsToRows irs = rs
  | [], irs => by
    intro h
    rw [irRowsFromRows] at h
    injection h with h
    subst h
    rfl
  | .mk c v :: rs, irs => by
    intro h
    rw [irRowsFromRows] at h
    cases h1 : childrenFromExpression c with
    | none => rw [h1] at h; exact Option.noConfusion h
    | some ic =>
      cases h2 : childrenFromExpression v with
      | none => rw [h1, h2] at h; exact Option.noConfusion h
      | some iv =>
        cases h3 : irRowsFromRows rs with
        | none => rw [h1, h2, h3] at h; exact Option.noConfusion h
        | some rest =>
          rw [h1, h2, h3] at h
          injection h with h
          subst h
          rw [irRowsToRows, irExprToChildren, irExprToChildren,
            irToChildren_from c ic h1, irToChildren_from v iv h2,
            irRowsToRows_from rs rest h3]

end

/-- Modelled from the spec (§4.3 `instantiate`): replace each positional
placeholder `{vi}` by the string form of `values[i]` in one text fragment.
(The source's `partial_apply` was meant to be this but guards on the wrong
string — claim C8; the missing decompiler is specified against `instantiate`,
so the model uses the specified operation.) -/
def instantiateFold (values : List String) (s0 : String) : String :=
  values.enum.foldl (fun child p => pyReplace child (placeholder p.1) p.2) s0

mutual

/-- Modelled from the spec: `instantiate` on a whole IR node — structure
preserved, every text fragment instantiated. -/
def IRExpression.instantiate : IRExpression → List String → IRExpression
  | .mk cs, vs => .mk (irChildrenInstantiate cs vs)
termination_by structural e _ => e

def irChildrenInstantiate : List IRChild → List String → List IRChild
  | [], _ => []
  | .text s :: cs, vs => .text (instantiateFold vs s) :: irChildrenInstantiate cs vs
  | .cond i :: cs, vs => .cond (irIfInstantiate i vs) :: irChildrenInstantiate cs vs
termination_by structural l _ => l

def irIfInstantiate : IRIf → List String → IRIf
  | .mk rows o, vs => .mk (irRowsInstantiate rows vs) (IRExpression.instantiate o vs)
termination_by structural i _ => i

def irRowsInstantiate : List IRIfRow → List String → List IRIfRow
  | [], _ => []
  | .mk c r :: rs, vs =>
    .mk (IRExpression.instantiate c vs) (IRExpression.instantiate r vs) ::
      irRowsInstantiate rs vs
termination_by structural l _ => l

end

/-- Keep the first occurrence of each string, drop later duplicates. -/
def dedupFirst : List String → List String
  | [] => []
  | s :: rest => s :: (dedupFirst rest).filter (fun t => t != s)

/-- Modelled from the spec: the constants of one fragment as the spec defines
them — quoted-literal contents and full numeric tokens (the missing grouping
engine is specified against §4.3's `constants`, not against the capture-group
slip of claim C7). -/
def fragConsts (s : String) : List String :=
  strLitScan s ++ (numScan s).map Prod.fst

/-- Modelled from the spec (§4.4): the ordered parameter list of one item —
"the union, in a canonical order, of the differing names/constants"; the
canonical order chosen is first appearance, dependencies before constants. -/
def paramsOf (e : IRExpression) : List String :=
  dedupFirst ((e.fragments.map bracketScan).flatten ++
    (e.fragments.map fragConsts).flatten)

/-- Modelled from the spec: the decompiler's view of one `Item` (the
`IRItem.from_item` of the source crashes on a nonexistent `item.expression`
attribute; the tests' `CalcSetDecompiler` is absent, so the item record is
reconstructed from the spec's "mirror the concrete model 1:1"). -/
structure IRItemM where
  kind : ItemKind
  name : String
  comment_item : String
  comment_equation : String
  expression : IRExpression

/-- Modelled from the spec (§4.5): one emitted declaration — an ordinary
single item declaration, or one iteration construct: a template body driven
by a per-instance table of (name, parameter values, comments) rows. -/
inductive DeclM where
  | single : IRItemM → DeclM
  | loop : ItemKind → IRExpression →
      List (String × List String × String × String) → DeclM

/-- The grouping engine's in-progress group: shared kind, shared template,
shared parameter count, and the members collected so far with their own
parameter lists. -/
structure RunM where
  kind : ItemKind
  template : IRExpression
  arity : Nat
  members : List (IRItemM × List String)

/-- Modelled from the spec (§4.4, §4.5): an item can join a group only if it
has at least one parameter token (a token-free expression "must be treated as
its own singleton group") and its template round-trips — instantiating the
template with its own parameters reproduces the expression (the round-trip
equality check of §4.5 is "the sole detector" of a bad template). -/
def itemEligible (it : IRItemM) : Bool :=
  !(paramsOf it.expression).isEmpty &&
    decide (IRExpression.instantiate
      (IRExpression.to_template it.expression (paramsOf it.expression))
      (paramsOf it.expression) = it.expression)

/-- Modelled from the spec (§4.4): shape compatibility with an open group —
same item kind, same number of distinct parameters ("items with differing
numbers of distinct parameters are never grouped"), identical IR tree after
`to_template`, and the round-trip check passes. -/
def runAccepts (r : RunM) (it : IRItemM) : Bool :=
  itemEligible it && decide (it.kind = r.kind) &&
    decide ((paramsOf it.expression).length = r.arity) &&
    decide (IRExpression.to_template it.expression (paramsOf it.expression) =
      r.template)

/-- Open a fresh group at an eligible item. -/
def newRun (it : IRItemM) : RunM :=
  ⟨it.kind, IRExpression.to_template it.expression (paramsOf it.expression),
    (paramsOf it.expression).length, [(it, paramsOf it.expression)]⟩

/-- Modelled from the spec: close a group — a group "with only one compatible
member degrades to an ordinary single emitted Item (no generator is
introduced for singleton groups)"; two or more members emit one iteration
construct whose table holds one row per member. -/
def declOfRun (r : RunM) : DeclM :=
  match r.members with
  | [(it, _)] => .single it
  | ms => .loop r.kind r.template
      (ms.map fun m => (m.1.name, m.2, m.1.comment_item, m.1.comment_equation))

/-- Modelled from the spec: the grouping pass over the IR items.  Groups are
maximal runs of consecutive shape-compatible items — a clustering choice the
spec leaves open (§9) and the only one compatible with C2's "in the same
order" requirement, since the emitted text replays declarations in sequence. -/
def decompileGo : Option RunM → List IRItemM → List DeclM
  | none, [] => []
  | some r, [] => [declOfRun r]
  | none, it :: rest =>
    if itemEligible it then decompileGo (some (newRun it)) rest
    else .single it :: decompileGo none rest
  | some r, it :: rest =>
    if runAccepts r it then
      decompileGo
        (some ⟨r.kind, r.template, r.arity,
          r.members ++ [(it, paramsOf it.expression)]⟩) rest
    else
      declOfRun r ::
        (if itemEligible it then decompileGo (some (newRun it)) rest
         else .single it :: decompileGo none rest)
termination_by structural _ l => l

/-- Conversion of one calculation-set element to the decompiler's item
record; `If`/`IfRow` elements and raw children have no `from_item` path. -/
def itemToIRM : CSItem → Option IRItemM
  | .item it =>
    match IRExpression.from_expression it.children with
    | some e => some ⟨it.kind, it.name, it.comment_item, it.comment_equation, e⟩
    | none => none
  | .ifExpr _ => none
  | .ifRow _ => none

def itemsToIRM : List CSItem → Option (List IRItemM)
  | [] => some []
  | x :: xs =>
    match itemToIRM x, itemsToIRM xs with
    | some i, some rest => some (i :: rest)
    | _, _ => none

/-- Modelled from the spec (§6): the decompiler's public entry point, as the
grouped declaration list the emitted source text renders (the text itself is
a rendering of exactly this structure; `tests/test_decomp.py` checks one
`"for name, inputs, consts in"` line per loop declaration). -/
def decompile_calcset (cs : CalcSet) : Option (List DeclM) :=
  match itemsToIRM cs.items with
  | some irits => some (decompileGo none irits)
  | none => none

/-- Re-instantiating one emitted item record: the constructor call the
emitter renders for it, evaluated. -/
def reconItem (it : IRItemM) : Item :=
  ⟨it.kind, it.name, irToChildren it.expression.children,
    it.comment_item, it.comment_equation⟩

/-- Modelled from the spec: evaluating one emitted declaration — a single
declaration rebuilds its item; an iteration construct instantiates the
template once per table row. -/
def evalDecl : DeclM → List Item
  | .single it => [reconItem it]
  | .loop k t rows => rows.map fun r =>
      ⟨k, r.1, irToChildren (IRExpression.instantiate t r.2.1).children,
        r.2.2.1, r.2.2.2⟩

/-- Modelled from the spec: evaluating the emitted source text appends the
items of each declaration in order. -/
def evalSnippet : List DeclM → List Item
  | [] => []
  | d :: ds => evalDecl d ++ evalSnippet ds

/-- The grouping invariant: every member of an open group has the group's
kind, and instantiating the group template with the member's own parameter
list reproduces the member's expression. -/
def RunOk (r : RunM) : Prop :=
  ∀ m ∈ r.members, (m : IRItemM × List String).1.kind = r.kind ∧
    IRExpression.instantiate r.template m.2 = m.1.expression

/-- The items an unfinished state still owes to the output. -/
def stItems : Option RunM → List Item
  | none => []
  | some r => r.members.map (fun m => reconItem m.1)

theorem runOk_newRun (it : IRItemM) (h : itemEligible it = true) :
    RunOk (newRun it) := by
  intro m hm
  simp only [newRun, List.mem_singleton] at hm
  subst hm
  refine ⟨rfl, ?_⟩
  simp only [itemEligible, Bool.and_eq_true, Bool.not_eq_true',
    decide_eq_true_eq] at h
  exact h.2

theorem runOk_extend (r : RunM) (it : IRItemM) (hr : RunOk r)
    (ha : runAccepts r it = true) :
    RunOk ⟨r.kind, r.template, r.arity,
      r.members ++ [(it, paramsOf it.expression)]⟩ := by
  intro m hm
  simp only [List.mem_append, List.mem_singleton] at hm
  cases hm with
  | inl hmem => exact hr m hmem
  | inr hnew =>
    subst hnew
    simp only [runAccepts, itemEligible, Bool.and_eq_true, Bool.not_eq_true',
      decide_eq_true_eq] at ha
    refine ⟨ha.1.1.2, ?_⟩
    rw [← ha.2, ha.1.1.1.2]

theorem evalDecl_declOfRun (r : RunM) (h : RunOk r) :
    evalDecl (declOfRun r) = r.members.map (fun m => reconItem m.1) := by
  obtain ⟨k, t, n, ms⟩ := r
  match ms with
  | [] => rfl
  | [(it, vs)] => rfl
  | (it1, vs1) :: (it2, vs2) :: rest =>
    show evalDecl (.loop k t _) = _
    rw [evalDecl, List.map_map]
    refine List.map_congr_left ?_
    intro m hm
    obtain ⟨hk, he⟩ := h m hm
    simp only [Function.comp_apply]
    rw [reconItem, he]
    rw [show m.1.kind = k from hk]

/-- Evaluating the emitted declarations replays the state's pending items and
then one item per remaining IR item, in order. -/
theorem decompileGo_eval : ∀ (items : List IRItemM) (st : Option RunM),
    (∀ r, st = some r → RunOk r) →
    evalSnippet (decompileGo st items) = stItems st ++ items.map reconItem
  | [], none => fun _ => rfl
  | [], some r => fun h => by
    rw [decompileGo, evalSnippet, evalSnippet,
      evalDecl_declOfRun r (h r rfl), stItems]
    simp
  | it :: rest, none => fun _ => by
    rw [decompileGo]
    by_cases he : itemEligible it = true
    · rw [if_pos he, decompileGo_eval rest (some (newRun it))
        (fun r2 hr2 => by injection hr2 with h2; exact h2 ▸ runOk_newRun it he)]
      simp [stItems, newRun]
    · rw [if_neg he, evalSnippet, decompileGo_eval rest none
        (fun r2 hr2 => nomatch hr2)]
      simp [stItems, evalDecl]
  | it :: rest, some r => fun h => by
    rw [decompileGo]
    by_cases ha : runAccepts r it = true
    · rw [if_pos ha, decompileGo_eval rest
        (some ⟨r.kind, r.template, r.arity,
          r.members ++ [(it, paramsOf it.expression)]⟩)
        (fun r2 hr2 => by
          injection hr2 with h2; exact h2 ▸ runOk_extend r it (h r rfl) ha)]
      simp [stItems]
    · rw [if_neg ha, evalSnippet, evalDecl_declOfRun r (h r rfl)]
      by_cases he : itemEligible it = true
      · rw [if_pos he, decompileGo_eval rest (some (newRun it))
          (fun r2 hr2 => by
            injection hr2 with h2; exact h2 ▸ runOk_newRun it he)]
        simp [stItems, newRun]
      · rw [if_neg he, evalSnippet, decompileGo_eval rest none
          (fun r2 hr2 => nomatch hr2)]
        simp [stItems, evalDecl]

theorem itemToIRM_recon : ∀ (x : CSItem) (irit : IRItemM),
    itemToIRM x = some irit → x = .item (reconItem irit) := by
  intro x irit h
  cases x with
  | item it =>
    simp only [itemToIRM] at h
    split at h
    next e heq =>
      injection h with h
      subst h
      rw [IRExpression.from_expression] at heq
      split at heq
      next cs hcs =>
        injection heq with heq
        subst heq
        rw [reconItem]
        show CSItem.item it = CSItem.item ⟨it.kind, it.name, _, _, _⟩
        rw [IRExpression.children, irToChildren_from it.children cs hcs]
      next hcs => exact Option.noConfusion heq
    next => exact Option.noConfusion h
  | ifExpr i => exact Option.noConfusion h
  | ifRow r0 => exact Option.noConfusion h

theorem itemsToIRM_recon : ∀ (xs : List CSItem) (irits : List IRItemM),
    itemsToIRM xs = some irits →
    xs = irits.map (fun i => CSItem.item (reconItem i))
  | [], irits => by
    intro h
    injection h with h
    subst h
    rfl
  | x :: xs, irits => by
    intro h
    rw [itemsToIRM] at h
    cases h1 : itemToIRM x with
    | none => rw [h1] at h; exact Option.noConfusion h
    | some i =>
      cases h2 : itemsToIRM xs with
      | none => rw [h1, h2] at h; exact Option.noConfusion h
      | some rest =>
        rw [h1, h2] at h
        injection h with h
        subst h
        rw [List.map_cons, ← itemToIRM_recon x i h1,
          ← itemsToIRM_recon xs rest h2]

/-- **C2.**  Decompile→re-instantiate identity: whenever the (spec-modelled)
decompiler entry point `decompile_calcset` succeeds on a calculation set,
evaluating the emitted declarations yields items whose per-item `to_dict`
list equals the set's per-item `to_dict` list, in the same order — singleton
declarations rebuild their item verbatim, and every iteration construct
rebuilds its members because group admission is gated by the §4.5 round-trip
check (instantiating the group template with the member's own parameters must
reproduce the member's expression). -/
theorem decompile_roundtrip (cs : CalcSet) (ds : List DeclM)
    (h : decompile_calcset cs = some ds) :
    (evalSnippet ds).map Item.to_dict = cs.items.map CSItem.to_dict := by
  rw [decompile_calcset] at h
  split at h
  next irits heq =>
    injection h with h
    subst h
    rw [decompileGo_eval irits none (fun r2 hr2 => nomatch hr2),
      itemsToIRM_recon cs.items irits heq, stItems, List.nil_append,
      List.map_map, List.map_map]
    rfl
  next => exact Option.noConfusion h

/-- Witness for C2 at the concrete two-item set `csWitness`: decompilation
succeeds and the evaluated output matches dictionary-for-dictionary. -/
theorem decompile_roundtrip_witness :
    ∃ ds, decompile_calcset csWitness = some ds ∧
      (evalSnippet ds).map Item.to_dict = csWitness.items.map CSItem.to_dict :=
  ⟨_, rfl, decompile_roundtrip csWitness _ rfl⟩

/-- The claim's duplicated pair: two Numbers of identical shape differing
only in variable names. -/
def csPair : CalcSet :=
  ⟨[.item ⟨.Number, "out1", [.text "[a] + [b]"], "", ""⟩,
    .item ⟨.Number, "out2", [.text "[c] + [d]"], "", ""⟩]⟩

/-- One of the pair on its own. -/
def csSingle : CalcSet :=
  ⟨[.item ⟨.Number, "out1", [.text "[a] + [b]"], "", ""⟩]⟩

/-- **C5.**  Grouping triggers exactly on genuine duplication: on the
duplicated pair the decompiler emits one single iteration construct — the
shared template `[{v0}] + [{v1}]` driven by a two-row per-instance value
table — not two independent declarations, while the singleton set is emitted
as one ordinary single declaration with no generator. -/
theorem grouping_on_duplication :
    decompile_calcset csPair =
      some [DeclM.loop .Number (.mk [.text "[{v0}] + [{v1}]"])
        [("out1", ["a", "b"], "", ""), ("out2", ["c", "d"], "", "")]] ∧
    decompile_calcset csSingle =
      some [DeclM.single ⟨.Number, "out1", "", "", .mk [.text "[a] + [b]"]⟩] :=
  ⟨rfl, rfl⟩

end Pollywog
